import Mathlib

/-!
# ini4u: a shallow embedding of `ini.hpp` and its specification

The header-only library `ini.hpp` parses INI-style text into a `structure`
(a map from header names to node sequences) and converts node values with
serializers and deserializers.  This file embeds the library's functions as Lean
definitions and proves the properties that the specification states about them.

Conventions of the embedding:

* a `std::string` is the list of its characters (`Str`);
* a `size_t` that may hold `std::string::npos` is an `Option Nat`, `none` being
  `npos`; the two places where the source does arithmetic on such a value
  (`npos + 1`, which wraps to `0`, and `0 - 1`, which wraps to `npos`) are the
  functions `size_succ` and `size_pred`;
* a C++ exception is the `Except.error` of the function that throws it.
-/

namespace ini

/-- A `std::string`, as the list of its characters. -/
abbrev Str := List Char

/-- The exceptions of `ini::error`, and the two standard-library exceptions
(`std::out_of_range`, `std::invalid_argument`) that the library calls can raise. -/
inductive Error where
  | empty_node_value
  | malformed_node
  | malformed_header
  | cast_not_allowed
  | out_of_range
  | invalid_argument
  deriving DecidableEq, Repr

/-! ## `std::string` members used by the library -/

/-- The value of `pos + 1` in `size_t` arithmetic: `npos + 1` wraps around to `0`. -/
def size_succ : Option Nat → Nat
  | none => 0
  | some i => i + 1

/-- The value of `pos - 1` in `size_t` arithmetic, for a position that was
found: `0 - 1` wraps around to `npos`. -/
def size_pred : Nat → Option Nat
  | 0 => none
  | i + 1 => some i

/-- The C++ member `s.find(c)`: the index of the first occurrence of `c`, or `npos`. -/
def string_find : Str → Char → Option Nat
  | [], _ => none
  | x :: xs, c => if x = c then some 0 else (string_find xs c).map (· + 1)

/-- The C++ member `s.find_first_not_of(chars)`: the index of the first character of `s` that
is not one of `chars`, or `npos`. -/
def string_find_first_not_of : Str → Str → Option Nat
  | [], _ => none
  | x :: xs, chars =>
    if x ∈ chars then (string_find_first_not_of xs chars).map (· + 1) else some 0

/-- The C++ member `s.find_last_not_of(chars)`: the index of the last character of `s` that is
not one of `chars`, or `npos`. -/
def string_find_last_not_of : Str → Str → Option Nat
  | [], _ => none
  | x :: xs, chars =>
    match string_find_last_not_of xs chars with
    | some i => some (i + 1)
    | none => if x ∈ chars then none else some 0

/-- The C++ member `s.erase(index, count)`: removes `min(count, size - index)` characters
starting at `index`.  The library calls it only from `trim`, with an index that
is at most `size()` (see `trim_erase_index_le`), where it cannot throw. -/
def string_erase (s : Str) (index : Nat) (count : Option Nat) : Str :=
  match count with
  | none => s.take index
  | some n => s.take index ++ s.drop (index + n)

/-- The C++ member `s.substr(pos, count)`: the `min(count, size - pos)` characters starting at
`pos`; throws `std::out_of_range` when `pos > size()`. -/
def string_substr (s : Str) (pos : Nat) (count : Option Nat) : Except Error Str :=
  if pos > s.length then .error .out_of_range
  else
    match count with
    | none => .ok (s.drop pos)
    | some n => .ok ((s.drop pos).take n)

/-! ## `ini::parser` -/

namespace parser

/-- The character set `" \n\r\t"` of `trim`. -/
def whitespace : Str := [' ', '\n', '\r', '\t']

/-- Membership in the character set of `trim`, as a Boolean test. -/
def is_ws (c : Char) : Bool := decide (c ∈ whitespace)

/-- The C++ function `parser::trim`: erases the leading, then the trailing, characters among
space, newline, carriage return and tab. -/
def trim (source : Str) : Str :=
  let result := source
  let result := string_erase result 0 (string_find_first_not_of result whitespace)
  let result :=
    string_erase result (size_succ (string_find_last_not_of result whitespace)) none
  result

end parser

/-! ## `ini::node` -/

/-- An `ini::node`: a name and its raw, untyped value. -/
structure node where
  _name : Str
  _value : Str
  deriving DecidableEq, Repr

namespace node

/-- The C++ function `node::name()`. -/
def name (n : node) : Str := n._name

/-- The C++ function `node::raw_value()`. -/
def raw_value (n : node) : Str := n._value

/-- The C++ function `node::from_raw`: splits the line at its first `=`. -/
def from_raw (raw : Str) : Except Error node :=
  match string_find raw '=' with
  | none => .error .malformed_node
  | some token_idx =>
    match string_substr raw 0 (some token_idx) with
    | .error e => .error e
    | .ok before =>
      let name := parser.trim before
      match string_substr raw (token_idx + 1) none with
      | .error e => .error e
      | .ok value => .ok (node.mk name value)

end node

/-! ## `ini::header` -/

/-- An `ini::header`: a section name. -/
structure header where
  _name : Str
  deriving DecidableEq, Repr

namespace header

/-- The C++ function `header::name()`. -/
def name (h : header) : Str := h._name

/-- The C++ function `header::from_raw`: trims the line, looks for the first `[` and the first
`]`, and takes `buf.substr(op_b + 1, cl_b - 1)`, trimmed, as the name. -/
def from_raw (raw : Str) : Except Error header :=
  let buf := parser.trim raw
  match string_find buf '[', string_find buf ']' with
  | some op_b, some cl_b =>
    match string_substr buf (op_b + 1) (size_pred cl_b) with
    | .error e => .error e
    | .ok inner => .ok (header.mk (parser.trim inner))
  | _, _ => .error .malformed_header

end header

/-! ## Standard-library number conversions

`std::to_string`, `std::stoi`, `std::stoll` and `std::stoull` belong to the C++
standard library; they are modelled from their documented behaviour. -/

/-- The decimal digit character of a number below ten. -/
def digit_char (d : Nat) : Char := Char.ofNat (48 + d)

/-- The digit loop of `std::to_string`: prepends the decimal digits of `value`
to `acc`, least significant digit first, until the quotient is zero. -/
def to_chars_10 : Nat → Nat → Str → Str
  | 0, _, acc => acc
  | fuel + 1, value, acc =>
    let acc := digit_char (value % 10) :: acc
    if value / 10 = 0 then acc else to_chars_10 fuel (value / 10) acc

/-- The decimal representation of a natural number (`std::to_string` of an
unsigned value). -/
def decimal (value : Nat) : Str := to_chars_10 (value + 1) value []

/-- The C++ function `std::to_string` of an integer value: a minus sign for a negative value,
then the decimal digits of its magnitude. -/
def to_string (v : Int) : Str :=
  if v < 0 then '-' :: decimal v.natAbs else decimal v.natAbs

/-- The C function `isspace` in the C locale. -/
def isspace (c : Char) : Bool :=
  c = ' ' || c = '\t' || c = '\n' || c = Char.ofNat 11 || c = Char.ofNat 12 || c = '\r'

/-- The C function `isdigit`. -/
def isdigit (c : Char) : Bool := 48 ≤ c.toNat && c.toNat ≤ 57

/-- The value of a decimal digit character. -/
def digit_val (c : Char) : Nat := c.toNat - 48

/-- The C++ member `s.c_str()` read back as a C string: the characters before the first NUL. -/
def c_str (s : Str) : Str := s.takeWhile (fun c => c ≠ Char.ofNat 0)

/-- The value of a sequence of decimal digits. -/
def digits_value (ds : Str) : Nat := ds.foldl (fun acc c => acc * 10 + digit_val c) 0

/-- A string of decimal digits: non-empty, every character a digit. -/
def is_digits (ds : Str) : Prop := ds ≠ [] ∧ ∀ c ∈ ds, isdigit c = true

instance (ds : Str) : Decidable (is_digits ds) := by
  unfold is_digits; infer_instance

/-- A decimal integer literal: an optional minus sign, then decimal digits. -/
def literal (neg : Bool) (ds : Str) : Str := if neg then '-' :: ds else ds

/-- The mathematical value of the literal with the given sign and digits. -/
def literal_value (neg : Bool) (ds : Str) : Int :=
  if neg then -(digits_value ds : Int) else (digits_value ds : Int)

/-- The scan shared by `strtol`, `strtoll` and `strtoull` in base ten: skips
leading white space, reads an optional sign, then the longest run of digits.
Returns whether a minus sign was read and the magnitude of the digits, or `none`
when there is no digit to convert. -/
def strto_scan (s : Str) : Option (Bool × Nat) :=
  let s := s.dropWhile isspace
  let signed : Bool × Str :=
    if s.head? = some '-' then (true, s.tail)
    else if s.head? = some '+' then (false, s.tail)
    else (false, s)
  let ds := signed.2.takeWhile isdigit
  if ds.isEmpty then none else some (signed.1, digits_value ds)

/-- The signed value of a scan result. -/
def scan_value (r : Bool × Nat) : Int := if r.1 then -(r.2 : Int) else (r.2 : Int)

/-- The C++ function `std::stoi`: throws `std::invalid_argument` when nothing can be converted
and `std::out_of_range` when the value does not fit an `int`. -/
def stoi (s : Str) : Except Error Int :=
  match strto_scan s with
  | none => .error .invalid_argument
  | some r =>
    if scan_value r < -(2 : Int) ^ 31 ∨ (2 : Int) ^ 31 - 1 < scan_value r then .error .out_of_range
    else .ok (scan_value r)

/-- The C++ function `std::stoll`: as `stoi`, for the range of `long long`. -/
def stoll (s : Str) : Except Error Int :=
  match strto_scan s with
  | none => .error .invalid_argument
  | some r =>
    if scan_value r < -(2 : Int) ^ 63 ∨ (2 : Int) ^ 63 - 1 < scan_value r then .error .out_of_range
    else .ok (scan_value r)

/-- The C++ function `std::stoull`: throws `std::out_of_range` when the magnitude exceeds
`ULLONG_MAX`; a minus sign negates the result in 64-bit unsigned arithmetic. -/
def stoull (s : Str) : Except Error Int :=
  match strto_scan s with
  | none => .error .invalid_argument
  | some r =>
    if 2 ^ 64 - 1 < r.2 then .error .out_of_range
    else .ok (scan_value r % (2 : Int) ^ 64)

/-! ## Serializers and deserializers -/

/-- The integer types the library names in its aliases. -/
inductive IntType where
  | unsigned_char
  | unsigned_short
  | unsigned_int
  | unsigned_long_long
  | signed_char
  | short
  | int
  | long_long
  deriving DecidableEq, Repr

namespace IntType

/-- The size `sizeof(T)` in bytes. -/
def sizeof : IntType → Nat
  | unsigned_char => 1
  | unsigned_short => 2
  | unsigned_int => 4
  | unsigned_long_long => 8
  | signed_char => 1
  | short => 2
  | int => 4
  | long_long => 8

/-- The trait `std::is_signed<T>::value`. -/
def is_signed : IntType → Bool
  | unsigned_char => false
  | unsigned_short => false
  | unsigned_int => false
  | unsigned_long_long => false
  | signed_char => true
  | short => true
  | int => true
  | long_long => true

/-- The number of value bits of `T`. -/
def bits (T : IntType) : Nat := 8 * T.sizeof

/-- Whether an integer is a value of type `T`. -/
def in_range (T : IntType) (v : Int) : Prop :=
  if T.is_signed then -(2 : Int) ^ (T.bits - 1) ≤ v ∧ v < (2 : Int) ^ (T.bits - 1)
  else 0 ≤ v ∧ v < (2 : Int) ^ T.bits

instance (T : IntType) (v : Int) : Decidable (T.in_range v) := by
  unfold in_range; infer_instance

end IntType

/-- The conversion `static_cast<T>` of an integer value: reduction modulo `2 ^ bits`, read in
two's complement for a signed `T`. -/
def static_cast (T : IntType) (v : Int) : Int :=
  if T.is_signed then (v + (2 : Int) ^ (T.bits - 1)) % (2 : Int) ^ T.bits - (2 : Int) ^ (T.bits - 1)
  else v % (2 : Int) ^ T.bits

/-- The type `deserializer_mode`, an `int`. -/
abbrev deserializer_mode := Int

namespace deserializer_modes

/-- The enumerator `none`. -/
def none : deserializer_mode := 0

/-- The enumerator `trim`. -/
def trim : deserializer_mode := 1

end deserializer_modes

/-- The C++ function `deserializer::has_mode`. -/
def has_mode (mask mode : deserializer_mode) : Bool := Int.land mask mode == mode

/-- The C++ function `deserializer::default_parse`. -/
def default_parse (_mode : deserializer_mode) (v : Str) : Str :=
  if has_mode _mode deserializer_modes.trim then parser.trim v else v

/-- The C++ function `number_serializer<T>::operator()`. -/
def number_serializer (_T : IntType) (v : Int) : Str := to_string v

/-- The C++ function `string_deserializer::operator()`. -/
def string_deserializer (mode : deserializer_mode) (v : Str) : Except Error Str :=
  .ok (default_parse mode v)

/-- The C++ function `number_deserializer<T>::operator()` for an integer type `T`: signed types of
fewer than four bytes and of four bytes go through `stoi`, the eight-byte signed
type through `stoll`, every unsigned type through `stoull`; the narrower types
cast the result. -/
def number_deserializer (T : IntType) (mode : deserializer_mode) (v : Str) : Except Error Int :=
  let buf := default_parse mode v
  if T.is_signed then
    if T.sizeof < 4 then (stoi (c_str buf)).map (static_cast T)
    else if T.sizeof = 4 then stoi (c_str buf)
    else stoll (c_str buf)
  else (stoull (c_str buf)).map (static_cast T)

/-- Whether the literal with the given sign and digits lies in the range of the
conversion that `number_deserializer<T>` calls: `int` for `stoi` (signed types of
at most four bytes), `long long` for `stoll`, and a magnitude of at most
`ULLONG_MAX` for `stoull` (unsigned types). -/
def parse_fits (T : IntType) (neg : Bool) (ds : Str) : Prop :=
  if T.is_signed then
    if T.sizeof ≤ 4 then
      -(2 : Int) ^ 31 ≤ literal_value neg ds ∧ literal_value neg ds ≤ (2 : Int) ^ 31 - 1
    else -(2 : Int) ^ 63 ≤ literal_value neg ds ∧ literal_value neg ds ≤ (2 : Int) ^ 63 - 1
  else digits_value ds ≤ 2 ^ 64 - 1

instance (T : IntType) (neg : Bool) (ds : Str) : Decidable (parse_fits T neg ds) := by
  unfold parse_fits; infer_instance

/-- The alias `u8_deserializer`. -/
abbrev u8_deserializer := number_deserializer IntType.unsigned_char

/-- The alias `u32_deserializer`. -/
abbrev u32_deserializer := number_deserializer IntType.unsigned_int

/-- The alias `i32_deserializer`. -/
abbrev i32_deserializer := number_deserializer IntType.int

namespace node

/-- The C++ function `node::get(d)`: throws `empty_node_value` when the trimmed raw value is
empty, otherwise applies the deserializer to the raw value. -/
def get {α : Type} (n : node) (d : Str → Except Error α) : Except Error α :=
  if (parser.trim n._value).isEmpty then .error .empty_node_value
  else d n._value

end node

/-! ## `ini::structure` -/

/-- An `ini::structure`: the map `_tree` from header names to node sequences
(the map is keyed by `header`, whose equality and hash are those of its name). -/
structure Structure where
  _tree : Str → Option (List node)

namespace Structure

/-- The default-constructed structure: an empty map. -/
def empty : Structure := ⟨fun _ => Option.none⟩

/-- The C++ function `structure::add_node`: `_tree[h.name()].push_back(n)`; `operator[]` creates
an empty sequence for a key that is absent. -/
def add_node (s : Structure) (h : header) (n : node) : Structure :=
  ⟨fun k => if k = h.name then some ((s._tree h.name).getD [] ++ [n]) else s._tree k⟩

/-- The C++ function `structure::all_nodes_of`: `_tree.at(header_name)`, which throws
`std::out_of_range` for an absent key. -/
def all_nodes_of (s : Structure) (header_name : Str) : Except Error (List node) :=
  match s._tree header_name with
  | some nodes => .ok nodes
  | Option.none => .error .out_of_range

/-- The do-while loop of `from_raw` that splits the text at each newline.  Each
iteration but the last shortens `buf`, so `buf.size() + 1` iterations always
suffice; `none` is the loop running out of `fuel`. -/
def split_lines : Nat → Str → List Str → Option (Except Error (List Str))
  | 0, _, _ => Option.none
  | fuel + 1, buf, lines =>
    let last_pos := string_find buf '\n'
    match string_substr buf 0 last_pos with
    | .error e => some (.error e)
    | .ok line =>
      let lines := lines ++ [line]
      match string_substr buf (size_succ last_pos) (some buf.length) with
      | .error e => some (.error e)
      | .ok buf =>
        if last_pos ≠ Option.none then split_lines fuel buf lines else some (.ok lines)

/-- The parsing loop of `from_raw` over the lines: removes the comment, trims,
skips an empty line, reads a header line (first character `[`) into
`current_header`, and adds any other line as a node under `current_header`. -/
def parse_lines : List Str → header → Structure → Except Error Structure
  | [], _, s => .ok s
  | line :: rest, current_header, s =>
    let comment_idx := string_find line ';'
    let stripped : Except Error Str :=
      match comment_idx with
      | some idx => string_substr line 0 (some idx)
      | Option.none => .ok line
    match stripped with
    | .error e => .error e
    | .ok line =>
      let line := parser.trim line
      if line.isEmpty then parse_lines rest current_header s
      else if line.head? = some '[' then
        match header.from_raw line with
        | .error e => .error e
        | .ok h => parse_lines rest h s
      else
        match node.from_raw line with
        | .error e => .error e
        | .ok n => parse_lines rest current_header (s.add_node current_header n)

/-- The C++ function `structure::from_raw`: splits the text into lines and parses them, starting
from the empty structure and the header with the empty name. -/
def from_raw (data : Str) : Option (Except Error Structure) :=
  match split_lines (data.length + 1) data [] with
  | Option.none => Option.none
  | some (.error e) => some (.error e)
  | some (.ok lines) => some (parse_lines lines (header.mk []) Structure.empty)

/-- The text whose lines are `ls`: the lines joined by single newline
characters. -/
def join_lines : List Str → Str
  | [] => []
  | [l] => l
  | l :: l2 :: ls => l ++ '\n' :: join_lines (l2 :: ls)

/-- A line after comment removal and trimming: the text before the first `;`,
trimmed. -/
def clean (line : Str) : Str := parser.trim (line.takeWhile (fun c => !decide (c = ';')))

/-- A line that the parsing loop skips: empty after comment removal and
trimming. -/
def is_blank_line (l : Str) : Prop := clean l = []

/-- A line that the parsing loop reads as a header: its first character after
comment removal and trimming is `[`. -/
def is_header_line (l : Str) : Prop := (clean l).head? = some '['

/-- A well-formed node line: after comment removal and trimming it is not
empty, does not start with `[`, and contains `=`. -/
def is_node_line (l : Str) : Prop :=
  clean l ≠ [] ∧ (clean l).head? ≠ some '[' ∧ '=' ∈ clean l

/-- A header line that `header::from_raw` accepts, with a name that is not
empty. -/
def is_named_header_line (l : Str) : Prop :=
  is_header_line l ∧ ∃ h, header.from_raw (clean l) = .ok h ∧ h.name ≠ []

instance (l : Str) : Decidable (is_blank_line l) := by
  unfold is_blank_line; infer_instance

instance (l : Str) : Decidable (is_header_line l) := by
  unfold is_header_line; infer_instance

instance (l : Str) : Decidable (is_node_line l) := by
  unfold is_node_line; infer_instance

/-- The node that each line which is not blank yields, in line order: `nodes`
are the results of `node::from_raw` on the cleaned lines of `ls` that are not
blank. -/
def nodes_of_lines (ls : List Str) (nodes : List node) : Prop :=
  List.Forall₂ (fun l n => node.from_raw (clean l) = .ok n)
    (ls.filter (fun l => !decide (clean l = []))) nodes

/-- Adds the nodes of a list, in order, under one header. -/
def add_node_list (s : Structure) (h : header) (ns : List node) : Structure :=
  ns.foldl (fun s n => s.add_node h n) s

/-- The six-line document of the specification's testable properties. -/
def spec_document : Str :=
  join_lines ["[header1]".toList, "this-is-a-node=value".toList,
    "node1=test_value ; comment".toList, "node2=test_value2".toList,
    "[header2]".toList, "morenode  =         320".toList]

/-- The C++ function `structure::add_nodes`: `operator[]` fetches (creating it
empty when absent) the sequence of `h.name()`, and `std::for_each` then runs
over that sequence itself, not over the range `[begin, end)`, which the lambda
captures and never reads.  Over an empty sequence the loop body never runs.
Over a sequence that is not empty the body calls `push_back` on the vector
being iterated, which invalidates the iterators of the loop: the behaviour is
undefined, and the model returns `none`. -/
def add_nodes (s : Structure) (h : header) (_range : List node) : Option Structure :=
  let nodes := (s._tree h.name).getD []
  match nodes with
  | [] => some ⟨fun k => if k = h.name then some [] else s._tree k⟩
  | _ :: _ => Option.none

/-- A sequence of `add_node` calls, applied in order. -/
def add_node_calls (s : Structure) (calls : List (header × node)) : Structure :=
  calls.foldl (fun s c => s.add_node c.1 c.2) s

/-- The nodes of the calls made under the header name `k`, in call order. -/
def calls_under (k : Str) (calls : List (header × node)) : List node :=
  (calls.filter (fun c => decide (c.1.name = k))).map (fun c => c.2)

/-- The nodes that the lines of a block yield, in line order: `node::from_raw`
of each cleaned line that is not blank. -/
def block_nodes : List Str → List node
  | [] => []
  | l :: rest =>
    if clean l = [] then block_nodes rest
    else
      match node.from_raw (clean l) with
      | .ok n => n :: block_nodes rest
      | .error _ => block_nodes rest

/-- The name that a header line gives to the current header. -/
def line_header_name (l : Str) : Str :=
  match header.from_raw (clean l) with
  | .ok h => h.name
  | .error _ => []

/-- A header line that `header::from_raw` accepts. -/
def is_good_header_line (l : Str) : Prop :=
  is_header_line l ∧ ∃ h, header.from_raw (clean l) = .ok h

/-- A header line without a closing bracket, which `header::from_raw` rejects. -/
def is_malformed_header_line (l : Str) : Prop :=
  is_header_line l ∧ ']' ∉ clean l

/-- A malformed node line: after comment removal and trimming it is not empty,
does not start with `[`, and contains no `=`. -/
def is_malformed_node_line (l : Str) : Prop :=
  clean l ≠ [] ∧ (clean l).head? ≠ some '[' ∧ '=' ∉ clean l

instance (l : Str) : Decidable (is_malformed_header_line l) := by
  unfold is_malformed_header_line; infer_instance

instance (l : Str) : Decidable (is_malformed_node_line l) := by
  unfold is_malformed_node_line; infer_instance

/-- A section of a document: a header line and the block of lines under it. -/
abbrev Section := Str × List Str

/-- The lines of a list of sections, in document order. -/
def section_lines : List Section → List Str
  | [] => []
  | sec :: rest => sec.1 :: (sec.2 ++ section_lines rest)

/-- The concatenation, in document order, of the nodes of the sections whose
header line names `k`. -/
def section_nodes (k : Str) : List Section → List node
  | [] => []
  | sec :: rest =>
    (if line_header_name sec.1 = k then block_nodes sec.2 else []) ++ section_nodes k rest

/-- A well-formed section: a header line that `header::from_raw` accepts, then
blank lines and well-formed node lines. -/
def is_section (sec : Section) : Prop :=
  is_good_header_line sec.1 ∧ ∀ l ∈ sec.2, is_blank_line l ∨ is_node_line l

/-- The text with every newline replaced by a carriage return and a newline. -/
def crlf : Str → Str
  | [] => []
  | c :: cs => if c = '\n' then '\r' :: '\n' :: crlf cs else c :: crlf cs

/-- The lines with a carriage return appended to each line but the last. -/
def add_cr : List Str → List Str
  | [] => []
  | [l] => [l]
  | l :: l2 :: ls => (l ++ ['\r']) :: add_cr (l2 :: ls)

end Structure

end ini

/-! ## Lemmas on the `std::string` members -/

namespace ini

theorem string_find_eq_none_iff (s : Str) (c : Char) : string_find s c = none ↔ c ∉ s := by
  induction s with
  | nil => simp [string_find]
  | cons x xs ih =>
    by_cases h : x = c
    · simp [string_find, h]
    · have h' : ¬ c = x := fun e => h e.symm
      simp [string_find, h, h', ih]

theorem string_find_append_cons (pre post : Str) (c : Char) (h : c ∉ pre) :
    string_find (pre ++ c :: post) c = some pre.length := by
  induction pre with
  | nil => simp [string_find]
  | cons x xs ih =>
    have hx : ¬ x = c := fun e => h (by simp [e])
    have hxs : c ∉ xs := fun e => h (by simp [e])
    simp [string_find, hx, ih hxs]

theorem string_find_eq_some (s : Str) (c : Char) (i : Nat) (h : string_find s c = some i) :
    ∃ pre post, s = pre ++ c :: post ∧ c ∉ pre ∧ pre.length = i := by
  induction s generalizing i with
  | nil => simp [string_find] at h
  | cons x xs ih =>
    by_cases hx : x = c
    · simp [string_find, hx] at h
      exact ⟨[], xs, by simp [hx], by simp, by simp [h]⟩
    · simp only [string_find, hx, if_false, Option.map_eq_some'] at h
      obtain ⟨j, hj, rfl⟩ := h
      obtain ⟨pre, post, rfl, hpre, rfl⟩ := ih j hj
      refine ⟨x :: pre, post, by simp, ?_, by simp⟩
      intro hmem
      rcases List.mem_cons.1 hmem with e | e
      · exact hx e.symm
      · exact hpre e

theorem mem_split_first (s : Str) (c : Char) (h : c ∈ s) :
    ∃ pre post, s = pre ++ c :: post ∧ c ∉ pre := by
  cases hf : string_find s c with
  | none => exact absurd h ((string_find_eq_none_iff s c).1 hf)
  | some i =>
    obtain ⟨pre, post, e, hp, _⟩ := string_find_eq_some s c i hf
    exact ⟨pre, post, e, hp⟩

theorem string_substr_zero (s : Str) (n : Nat) :
    string_substr s 0 (some n) = .ok (s.take n) := by
  simp [string_substr]

theorem string_substr_none (s : Str) (pos : Nat) (h : pos ≤ s.length) :
    string_substr s pos none = .ok (s.drop pos) := by
  simp [string_substr, Nat.not_lt.2 h]

theorem string_substr_some (s : Str) (pos n : Nat) (h : pos ≤ s.length) :
    string_substr s pos (some n) = .ok ((s.drop pos).take n) := by
  simp [string_substr, Nat.not_lt.2 h]

/-! ## Lemmas on `trim` -/

namespace parser

theorem is_ws_iff (c : Char) : is_ws c = true ↔ c ∈ whitespace := by
  simp [is_ws]

theorem erase_first_not_of (s : Str) :
    string_erase s 0 (string_find_first_not_of s whitespace) = s.dropWhile is_ws := by
  induction s with
  | nil => simp [string_find_first_not_of, string_erase]
  | cons x xs ih =>
    by_cases hx : x ∈ whitespace
    · have hw : is_ws x = true := (is_ws_iff x).2 hx
      rw [List.dropWhile_cons_of_pos hw, ← ih]
      simp only [string_find_first_not_of, hx, if_true]
      cases string_find_first_not_of xs whitespace with
      | none => simp [string_erase]
      | some i => simp [string_erase]
    · have hw : ¬ is_ws x = true := fun e => hx ((is_ws_iff x).1 e)
      rw [List.dropWhile_cons_of_neg hw]
      simp [string_find_first_not_of, hx, string_erase]

theorem rdropWhile_cons (p : Char → Bool) (x : Char) (xs : Str) :
    (x :: xs).rdropWhile p =
      if xs.rdropWhile p = [] then (if p x then [] else [x]) else x :: xs.rdropWhile p := by
  induction xs using List.reverseRecOn with
  | nil => simp [List.rdropWhile_singleton]
  | append_singleton ys a ih =>
    rw [← List.cons_append]
    by_cases ha : p a = true
    · rw [List.rdropWhile_concat_pos _ _ _ ha, List.rdropWhile_concat_pos _ _ _ ha, ih]
    · rw [List.rdropWhile_concat_neg _ _ _ ha, List.rdropWhile_concat_neg _ _ _ ha]
      simp

theorem find_last_not_of_eq_none (s : Str) :
    string_find_last_not_of s whitespace = none ↔ s.rdropWhile is_ws = [] := by
  induction s with
  | nil => simp [string_find_last_not_of]
  | cons x xs ih =>
    rw [rdropWhile_cons]
    simp only [string_find_last_not_of]
    cases hl : string_find_last_not_of xs whitespace with
    | some i =>
      have hne : ¬ xs.rdropWhile is_ws = [] := fun e => by
        have := ih.2 e
        rw [hl] at this
        cases this
      simp [hne]
    | none =>
      have he : xs.rdropWhile is_ws = [] := ih.1 hl
      by_cases hx : x ∈ whitespace
      · simp [he, hx, is_ws]
      · simp [he, hx, is_ws]

theorem take_last_not_of (s : Str) :
    s.take (size_succ (string_find_last_not_of s whitespace)) = s.rdropWhile is_ws := by
  induction s with
  | nil => simp [string_find_last_not_of, size_succ]
  | cons x xs ih =>
    rw [rdropWhile_cons]
    simp only [string_find_last_not_of]
    cases hl : string_find_last_not_of xs whitespace with
    | some i =>
      have hne : ¬ xs.rdropWhile is_ws = [] := fun e => by
        have := (find_last_not_of_eq_none xs).2 e
        rw [hl] at this
        cases this
      rw [hl] at ih
      simp only [size_succ] at ih ⊢
      rw [List.take_succ_cons, ih, if_neg hne]
    | none =>
      have he : xs.rdropWhile is_ws = [] := (find_last_not_of_eq_none xs).1 hl
      by_cases hx : x ∈ whitespace
      · simp [he, hx, is_ws, size_succ]
      · simp [he, hx, is_ws, size_succ]

/-- The index that `trim` passes to its second `erase` is at most the size of
the string, so neither `erase` of `trim` can throw. -/
theorem trim_erase_index_le (s : Str) :
    size_succ (string_find_last_not_of s whitespace) ≤ s.length := by
  induction s with
  | nil => simp [string_find_last_not_of, size_succ]
  | cons x xs ih =>
    simp only [string_find_last_not_of]
    cases hl : string_find_last_not_of xs whitespace with
    | some i =>
      rw [hl] at ih
      simp only [size_succ, List.length_cons] at ih ⊢
      omega
    | none =>
      by_cases hx : x ∈ whitespace
      · simp [hx, size_succ]
      · simp [hx, size_succ]

/-- The function `trim` removes the longest leading and then the longest trailing run of
white space. -/
theorem trim_eq (s : Str) : trim s = (s.dropWhile is_ws).rdropWhile is_ws := by
  simp only [trim, erase_first_not_of]
  simp only [string_erase]
  exact take_last_not_of _

theorem trim_nil : trim [] = [] := by
  simp [trim_eq]

theorem trim_append_left (w s : Str) (hw : ∀ c ∈ w, c ∈ whitespace) :
    trim (w ++ s) = trim s := by
  have h : ∀ c ∈ w, is_ws c = true := fun c hc => (is_ws_iff c).2 (hw c hc)
  rw [trim_eq, trim_eq, List.dropWhile_append_of_pos h]

theorem rdropWhile_append_right (p : Char → Bool) (s w : Str) (hw : ∀ c ∈ w, p c = true) :
    (s ++ w).rdropWhile p = s.rdropWhile p := by
  unfold List.rdropWhile
  rw [List.reverse_append, List.dropWhile_append_of_pos]
  intro c hc
  exact hw c (List.mem_reverse.1 hc)

theorem trim_append_right (s w : Str) (hw : ∀ c ∈ w, c ∈ whitespace) :
    trim (s ++ w) = trim s := by
  have h : ∀ c ∈ w, is_ws c = true := fun c hc => (is_ws_iff c).2 (hw c hc)
  rw [trim_eq, trim_eq, List.dropWhile_append]
  by_cases he : (List.dropWhile is_ws s).isEmpty = true
  · rw [if_pos he]
    have hnil : List.dropWhile is_ws s = [] := List.isEmpty_iff.1 he
    have hw' : List.dropWhile is_ws w = [] := List.dropWhile_eq_nil_iff.2 h
    rw [hnil, hw']
  · rw [if_neg he]
    exact rdropWhile_append_right _ _ _ h

theorem trim_eq_nil_iff (s : Str) : trim s = [] ↔ ∀ c ∈ s, c ∈ whitespace := by
  rw [trim_eq, List.rdropWhile_eq_nil_iff]
  constructor
  · intro h c hc
    by_contra hcw
    have hs : s = s.takeWhile is_ws ++ s.dropWhile is_ws :=
      (List.takeWhile_append_dropWhile is_ws s).symm
    rw [hs] at hc
    rcases List.mem_append.1 hc with h1 | h2
    · exact hcw ((is_ws_iff c).1 (List.mem_takeWhile_imp h1))
    · exact hcw ((is_ws_iff c).1 (h c h2))
  · intro h c hc
    exact (is_ws_iff c).2 (h c ((List.dropWhile_sublist is_ws).subset hc))

theorem mem_trim (s : Str) (c : Char) (hc : c ∉ whitespace) : c ∈ trim s ↔ c ∈ s := by
  have hp : ¬ is_ws c = true := fun e => hc ((is_ws_iff c).1 e)
  have h1 : c ∈ s ↔ c ∈ s.dropWhile is_ws := by
    constructor
    · intro h
      have hs : s = s.takeWhile is_ws ++ s.dropWhile is_ws :=
        (List.takeWhile_append_dropWhile is_ws s).symm
      rw [hs] at h
      rcases List.mem_append.1 h with h1 | h2
      · exact absurd (List.mem_takeWhile_imp h1) hp
      · exact h2
    · intro h
      exact (List.dropWhile_sublist is_ws).subset h
  have h2 : ∀ t : Str, c ∈ t ↔ c ∈ t.rdropWhile is_ws := by
    intro t
    unfold List.rdropWhile
    rw [List.mem_reverse]
    constructor
    · intro h
      have hs : t.reverse = t.reverse.takeWhile is_ws ++ t.reverse.dropWhile is_ws :=
        (List.takeWhile_append_dropWhile is_ws t.reverse).symm
      have h' : c ∈ t.reverse := List.mem_reverse.2 h
      rw [hs] at h'
      rcases List.mem_append.1 h' with h1 | h2
      · exact absurd (List.mem_takeWhile_imp h1) hp
      · exact h2
    · intro h
      exact List.mem_reverse.1 ((List.dropWhile_sublist is_ws).subset h)
  rw [trim_eq, h1]
  exact (h2 _).symm

end parser

/-- A string that starts and ends with a character outside the set of `trim`
is left unchanged. -/
theorem parser.trim_tight (a b : Char) (m : Str) (ha : a ∉ parser.whitespace)
    (hb : b ∉ parser.whitespace) : parser.trim (a :: (m ++ [b])) = a :: (m ++ [b]) := by
  have hpa : ¬ parser.is_ws a = true := fun e => ha ((parser.is_ws_iff a).1 e)
  have hpb : ¬ parser.is_ws b = true := fun e => hb ((parser.is_ws_iff b).1 e)
  rw [parser.trim_eq, List.dropWhile_cons_of_neg hpa, ← List.cons_append,
    List.rdropWhile_concat_neg _ _ _ hpb]

/-! ## `node::from_raw` and `header::from_raw` -/

theorem node_from_raw_append (pre post : Str) (h : '=' ∉ pre) :
    node.from_raw (pre ++ '=' :: post) = .ok (node.mk (parser.trim pre) post) := by
  have hlen : pre.length + 1 ≤ (pre ++ '=' :: post).length := by simp
  simp only [node.from_raw, string_find_append_cons pre post '=' h, string_substr_zero,
    string_substr_none _ _ hlen]
  simp

theorem node_from_raw_no_eq (line : Str) (h : '=' ∉ line) :
    node.from_raw line = .error .malformed_node := by
  simp [node.from_raw, (string_find_eq_none_iff line '=').2 h]

theorem header_from_raw_ok (line : Str) (h1 : '[' ∈ line) (h2 : ']' ∈ line) :
    ∃ h, header.from_raw line = .ok h := by
  have hb1 : '[' ∈ parser.trim line := (parser.mem_trim line _ (by decide)).2 h1
  have hb2 : ']' ∈ parser.trim line := (parser.mem_trim line _ (by decide)).2 h2
  cases ho : string_find (parser.trim line) '[' with
  | none => exact absurd hb1 ((string_find_eq_none_iff _ _).1 ho)
  | some op_b =>
    cases hc : string_find (parser.trim line) ']' with
    | none => exact absurd hb2 ((string_find_eq_none_iff _ _).1 hc)
    | some cl_b =>
      obtain ⟨pre, post, e, _, hl⟩ := string_find_eq_some _ _ _ ho
      have hle : op_b + 1 ≤ (parser.trim line).length := by
        rw [e, ← hl]; simp
      cases hp : size_pred cl_b with
      | none =>
        exact ⟨header.mk (parser.trim ((parser.trim line).drop (op_b + 1))),
          by simp only [header.from_raw, ho, hc, hp, string_substr_none _ _ hle]⟩
      | some k =>
        exact ⟨header.mk (parser.trim (((parser.trim line).drop (op_b + 1)).take k)),
          by simp only [header.from_raw, ho, hc, hp, string_substr_some _ _ _ hle]⟩

theorem header_from_raw_malformed (line : Str) (h : '[' ∉ line ∨ ']' ∉ line) :
    header.from_raw line = .error .malformed_header := by
  rcases h with h | h
  · have hb : '[' ∉ parser.trim line := fun e => h ((parser.mem_trim line _ (by decide)).1 e)
    simp [header.from_raw, (string_find_eq_none_iff _ _).2 hb]
  · have hb : ']' ∉ parser.trim line := fun e => h ((parser.mem_trim line _ (by decide)).1 e)
    simp only [header.from_raw, (string_find_eq_none_iff _ _).2 hb]
    cases string_find (parser.trim line) '[' <;> rfl

theorem header_from_raw_bracketed (m : Str) (hm : ']' ∉ m) :
    header.from_raw ('[' :: (m ++ [']'])) = .ok (header.mk (parser.trim m)) := by
  have ht : parser.trim ('[' :: (m ++ [']'])) = '[' :: (m ++ [']']) :=
    parser.trim_tight _ _ _ (by decide) (by decide)
  have hf1 : string_find ('[' :: (m ++ [']'])) '[' = some 0 := by simp [string_find]
  have hf2 : string_find ('[' :: (m ++ [']'])) ']' = some (m.length + 1) := by
    have hnot : ']' ∉ '[' :: m := by
      intro e
      rcases List.mem_cons.1 e with e | e
      · exact absurd e (by decide)
      · exact hm e
    have := string_find_append_cons ('[' :: m) [] ']' hnot
    simpa using this
  simp only [header.from_raw, ht, hf1, hf2, size_pred]
  simp [string_substr]

end ini

/-! ## Decimal conversion -/

namespace ini

theorem digit_char_props (d : Nat) (h : d < 10) :
    isdigit (digit_char d) = true ∧ digit_val (digit_char d) = d ∧
    isspace (digit_char d) = false ∧ digit_char d ≠ '-' ∧ digit_char d ≠ '+' ∧
    digit_char d ≠ Char.ofNat 0 ∧ digit_char d ∉ parser.whitespace := by
  interval_cases d <;> decide

theorem isdigit_props (c : Char) (h : isdigit c = true) :
    isspace c = false ∧ c ≠ '-' ∧ c ≠ '+' ∧ c ≠ Char.ofNat 0 ∧ c ∉ parser.whitespace ∧
    digit_val c < 10 := by
  simp only [isdigit, Bool.and_eq_true, decide_eq_true_eq] at h
  have hc : c = Char.ofNat c.toNat := (Char.ofNat_toNat c).symm
  generalize c.toNat = n at h hc
  obtain ⟨h1, h2⟩ := h
  subst hc
  interval_cases n <;> decide

theorem digits_value_append (ds : Str) (c : Char) :
    digits_value (ds ++ [c]) = digits_value ds * 10 + digit_val c := by
  simp [digits_value, List.foldl_append]

theorem to_chars_10_spec (fuel : Nat) :
    ∀ (value : Nat) (acc : Str), value < fuel →
      ∃ ds, to_chars_10 fuel value acc = ds ++ acc ∧ is_digits ds ∧ digits_value ds = value := by
  induction fuel with
  | zero => intro value acc h; omega
  | succ fuel ih =>
    intro value acc h
    have hlt : value % 10 < 10 := Nat.mod_lt _ (by decide)
    obtain ⟨hd, hv, -⟩ := digit_char_props (value % 10) hlt
    by_cases hq : value / 10 = 0
    · refine ⟨[digit_char (value % 10)], ?_, ⟨by simp, ?_⟩, ?_⟩
      · simp [to_chars_10, hq]
      · intro c hc
        rw [List.mem_singleton.1 hc]
        exact hd
      · simp only [digits_value, List.foldl_cons, List.foldl_nil, hv]
        omega
    · have hlt2 : value / 10 < fuel := by omega
      obtain ⟨ds, e, ⟨hne, hall⟩, hval⟩ := ih (value / 10) (digit_char (value % 10) :: acc) hlt2
      refine ⟨ds ++ [digit_char (value % 10)], ?_, ⟨by simp, ?_⟩, ?_⟩
      · simp [to_chars_10, hq, e]
      · intro c hc
        rcases List.mem_append.1 hc with h1 | h1
        · exact hall c h1
        · rw [List.mem_singleton.1 h1]
          exact hd
      · rw [digits_value_append, hval, hv]
        omega

theorem decimal_spec (n : Nat) : is_digits (decimal n) ∧ digits_value (decimal n) = n := by
  obtain ⟨ds, e, hd, hv⟩ := to_chars_10_spec (n + 1) n [] (Nat.lt_succ_self n)
  have : decimal n = ds := by simp [decimal, e]
  rw [this]
  exact ⟨hd, hv⟩

theorem strto_scan_digits (ds : Str) (h : is_digits ds) :
    strto_scan ds = some (false, digits_value ds) := by
  obtain ⟨hne, hall⟩ := h
  cases ds with
  | nil => exact absurd rfl hne
  | cons c cs =>
    obtain ⟨hs, hm, hp, -⟩ := isdigit_props c (hall c (by simp))
    have htw : List.takeWhile isdigit (c :: cs) = c :: cs :=
      List.takeWhile_eq_self_iff.2 hall
    have hdw : List.dropWhile isspace (c :: cs) = c :: cs := by
      rw [List.dropWhile_cons_of_neg (by simp [hs])]
    simp only [strto_scan, hdw, List.head?_cons, Option.some.injEq, hm, hp, if_false, htw]
    simp

theorem strto_scan_minus (ds : Str) (h : is_digits ds) :
    strto_scan ('-' :: ds) = some (true, digits_value ds) := by
  obtain ⟨hne, hall⟩ := h
  have htw : List.takeWhile isdigit ds = ds := List.takeWhile_eq_self_iff.2 hall
  have hdw : List.dropWhile isspace ('-' :: ds) = '-' :: ds := by
    rw [List.dropWhile_cons_of_neg (by decide)]
  simp only [strto_scan, hdw, List.head?_cons, if_true, List.tail_cons, htw]
  simp [hne]

theorem literal_no_special (neg : Bool) (ds : Str) (h : is_digits ds) :
    ∀ c ∈ literal neg ds, c ≠ Char.ofNat 0 ∧ c ∉ parser.whitespace := by
  intro c hc
  have hdig : ∀ c ∈ ds, c ≠ Char.ofNat 0 ∧ c ∉ parser.whitespace := by
    intro c hc
    obtain ⟨-, -, -, h0, hw, -⟩ := isdigit_props c (h.2 c hc)
    exact ⟨h0, hw⟩
  cases neg with
  | false => exact hdig c hc
  | true =>
    simp only [literal, if_true] at hc
    rcases List.mem_cons.1 hc with e | e
    · subst e
      exact ⟨by decide, by decide⟩
    · exact hdig c e

theorem literal_ne_nil (neg : Bool) (ds : Str) (h : is_digits ds) : literal neg ds ≠ [] := by
  cases neg with
  | false => exact h.1
  | true => simp [literal]

theorem c_str_eq_self (s : Str) (h : ∀ c ∈ s, c ≠ Char.ofNat 0) : c_str s = s := by
  unfold c_str
  apply List.takeWhile_eq_self_iff.2
  intro c hc
  simpa using h c hc

theorem parser.trim_eq_self (s : Str) (h : ∀ c ∈ s, c ∉ parser.whitespace) :
    parser.trim s = s := by
  have hp : ∀ c ∈ s, ¬ parser.is_ws c = true :=
    fun c hc e => h c hc ((parser.is_ws_iff c).1 e)
  have h1 : List.dropWhile parser.is_ws s = s := by
    cases s with
    | nil => rfl
    | cons x xs => exact List.dropWhile_cons_of_neg (hp x (by simp))
  have h2 : List.rdropWhile parser.is_ws s = s := by
    induction s using List.reverseRecOn with
    | nil => rfl
    | append_singleton ys a _ => exact List.rdropWhile_concat_neg _ _ _ (hp a (by simp))
  rw [parser.trim_eq, h1, h2]

theorem strto_scan_literal (neg : Bool) (ds : Str) (h : is_digits ds) :
    strto_scan (c_str (literal neg ds)) = some (neg, digits_value ds) := by
  rw [c_str_eq_self _ (fun c hc => (literal_no_special neg ds h c hc).1)]
  cases neg with
  | false => exact strto_scan_digits ds h
  | true => exact strto_scan_minus ds h

theorem default_parse_literal (mode : deserializer_mode) (neg : Bool) (ds : Str)
    (h : is_digits ds) : default_parse mode (literal neg ds) = literal neg ds := by
  unfold default_parse
  split
  · exact parser.trim_eq_self _ (fun c hc => (literal_no_special neg ds h c hc).2)
  · rfl

theorem to_string_eq_literal (v : Int) :
    ∃ ds, is_digits ds ∧ to_string v = literal (decide (v < 0)) ds ∧
      literal_value (decide (v < 0)) ds = v := by
  obtain ⟨hd, hv⟩ := decimal_spec v.natAbs
  refine ⟨decimal v.natAbs, hd, ?_, ?_⟩
  · by_cases h : v < 0
    · simp [to_string, literal, h]
    · simp [to_string, literal, h]
  · by_cases h : v < 0
    · simp only [literal_value, h, decide_True, if_true, hv]
      omega
    · simp only [literal_value, h, decide_False, hv]
      simp only [Bool.false_eq_true, if_false]
      omega

theorem scan_value_eq (neg : Bool) (ds : Str) :
    scan_value (neg, digits_value ds) = literal_value neg ds := by
  simp [scan_value, literal_value]

theorem static_cast_of_in_range (T : IntType) (v : Int) (h : T.in_range v) :
    static_cast T v = v := by
  cases T <;>
    simp only [IntType.in_range, IntType.is_signed, IntType.bits, IntType.sizeof, if_true,
      Bool.false_eq_true, if_false] at h <;>
    simp only [static_cast, IntType.is_signed, IntType.bits, IntType.sizeof, if_true,
      Bool.false_eq_true, if_false] <;>
    norm_num at h ⊢ <;> omega

/-- The result of `number_deserializer<T>` on a decimal literal, in either mode:
the value cast to `T` when it lies in the range of the conversion function, and
`std::out_of_range` otherwise. -/
theorem number_deserializer_literal (T : IntType) (mode : deserializer_mode) (neg : Bool)
    (ds : Str) (h : is_digits ds) :
    number_deserializer T mode (literal neg ds) =
      if parse_fits T neg ds then .ok (static_cast T (literal_value neg ds))
      else .error .out_of_range := by
  have hscan := strto_scan_literal neg ds h
  have hv := scan_value_eq neg ds
  simp only [number_deserializer, default_parse_literal mode neg ds h, stoi, stoll, stoull,
    hscan, hv]
  cases T <;>
    simp only [IntType.is_signed, IntType.sizeof, parse_fits, if_true, Bool.false_eq_true,
      if_false] <;> norm_num
  all_goals
    generalize literal_value neg ds = v
    generalize digits_value ds = m
    split <;> split <;>
      first
        | rfl
        | omega
        | (simp only [Except.map, static_cast, IntType.is_signed, IntType.bits, IntType.sizeof,
            if_true, Bool.false_eq_true, if_false, Except.ok.injEq]
           omega)

theorem node_get_literal {α : Type} (name : Str) (neg : Bool) (ds : Str) (h : is_digits ds)
    (d : Str → Except Error α) :
    (node.mk name (literal neg ds)).get d = d (literal neg ds) := by
  have ht : parser.trim (literal neg ds) = literal neg ds :=
    parser.trim_eq_self _ (fun c hc => (literal_no_special neg ds h c hc).2)
  have hne := literal_ne_nil neg ds h
  simp [node.get, ht, hne]

theorem parse_fits_of_in_range (T : IntType) (neg : Bool) (ds : Str)
    (h : T.in_range (literal_value neg ds)) : parse_fits T neg ds := by
  revert h
  unfold parse_fits
  cases neg <;> simp only [literal_value, Bool.false_eq_true, if_false, if_true] <;>
    generalize digits_value ds = m <;>
    intro h <;>
    cases T <;>
    simp only [IntType.in_range, IntType.is_signed, IntType.bits, IntType.sizeof, if_true,
      Bool.false_eq_true, if_false] at h <;>
    simp only [IntType.is_signed, IntType.sizeof, if_true, Bool.false_eq_true,
      if_false] <;>
    norm_num at h ⊢ <;> omega

end ini

/-! ## `structure::from_raw` -/

namespace ini

namespace Structure

theorem takeWhile_ne_append (pre post : Str) (c : Char) (h : c ∉ pre) :
    (pre ++ c :: post).takeWhile (fun x => !decide (x = c)) = pre := by
  induction pre with
  | nil => simp
  | cons x xs ih =>
    have hx : x ≠ c := fun e => h (by simp [e])
    have hxs : c ∉ xs := fun e => h (by simp [e])
    simp [List.takeWhile_cons, hx, ih hxs]

theorem strip_comment_eq (line : Str) :
    (match string_find line ';' with
      | some idx => string_substr line 0 (some idx)
      | Option.none => Except.ok line)
      = .ok (line.takeWhile (fun c => !decide (c = ';'))) := by
  cases hf : string_find line ';' with
  | none =>
    have hn : ';' ∉ line := (string_find_eq_none_iff _ _).1 hf
    have : line.takeWhile (fun c => !decide (c = ';')) = line := by
      apply List.takeWhile_eq_self_iff.2
      intro c hc
      have : c ≠ ';' := fun e => hn (e ▸ hc)
      simpa using this
    simp [this]
  | some idx =>
    obtain ⟨pre, post, e, hp, hl⟩ := string_find_eq_some _ _ _ hf
    simp only [string_substr_zero]
    rw [e, takeWhile_ne_append pre post ';' hp, ← hl]
    simp

theorem parse_lines_cons (line : Str) (rest : List Str) (h : header) (s : Structure) :
    parse_lines (line :: rest) h s =
      if clean line = [] then parse_lines rest h s
      else if (clean line).head? = some '[' then
        match header.from_raw (clean line) with
        | .error e => .error e
        | .ok h2 => parse_lines rest h2 s
      else
        match node.from_raw (clean line) with
        | .error e => .error e
        | .ok n => parse_lines rest h (s.add_node h n) := by
  simp only [parse_lines, strip_comment_eq, clean, List.isEmpty_iff]

theorem join_lines_cons_cons (l l2 : Str) (ls : List Str) :
    join_lines (l :: l2 :: ls) = l ++ '\n' :: join_lines (l2 :: ls) := rfl

theorem split_lines_join (ls : List Str) (hne : ls ≠ []) (hnl : ∀ l ∈ ls, '\n' ∉ l) :
    ∀ (fuel : Nat) (acc : List Str), (join_lines ls).length < fuel →
      split_lines fuel (join_lines ls) acc = some (.ok (acc ++ ls)) := by
  induction ls with
  | nil => exact absurd rfl hne
  | cons l rest ih =>
    intro fuel acc hfuel
    cases fuel with
    | zero => omega
    | succ fuel =>
      cases rest with
      | nil =>
        have hf : string_find l '\n' = Option.none :=
          (string_find_eq_none_iff _ _).2 (hnl l (by simp))
        simp [split_lines, join_lines, hf, string_substr, size_succ]
      | cons l2 rest2 =>
        have hl : '\n' ∉ l := hnl l (by simp)
        have hf : string_find (l ++ '\n' :: join_lines (l2 :: rest2)) '\n' = some l.length :=
          string_find_append_cons _ _ _ hl
        have ih2 := ih (by simp) (fun x hx => hnl x (by simp [hx])) fuel (acc ++ [l])
          (by rw [join_lines_cons_cons] at hfuel; simp at hfuel; omega)
        rw [join_lines_cons_cons]
        simp only [split_lines, hf, string_substr_zero]
        simp only [string_substr, size_succ]
        have hdrop : List.drop (l.length + 1) (l ++ '\n' :: join_lines (l2 :: rest2))
            = join_lines (l2 :: rest2) := by
          rw [List.drop_append_eq_append_drop]
          simp
        have hlen : ¬ (l.length + 1 > (l ++ '\n' :: join_lines (l2 :: rest2)).length) := by
          simp
        rw [if_neg hlen, hdrop, List.take_of_length_le (by simp; omega)]
        simp [ih2]

/-- Every text is the join of its lines: a non-empty list of strings without
newline characters. -/
theorem exists_lines (data : Str) :
    ∃ ls, ls ≠ [] ∧ (∀ l ∈ ls, '\n' ∉ l) ∧ join_lines ls = data := by
  induction data with
  | nil => exact ⟨[[]], by simp, by simp, rfl⟩
  | cons c cs ih =>
    obtain ⟨ls, hne, hnl, e⟩ := ih
    cases ls with
    | nil => exact absurd rfl hne
    | cons l rest =>
      by_cases hc : c = '\n'
      · refine ⟨[] :: l :: rest, by simp, ?_, ?_⟩
        · intro x hx
          rcases List.mem_cons.1 hx with e2 | e2
          · rw [e2]; simp
          · exact hnl x e2
        · rw [join_lines_cons_cons, e, hc]
          rfl
      · refine ⟨(c :: l) :: rest, by simp, ?_, ?_⟩
        · intro x hx
          rcases List.mem_cons.1 hx with e2 | e2
          · rw [e2]
            intro hmem
            rcases List.mem_cons.1 hmem with e3 | e3
            · exact hc e3.symm
            · exact hnl l (by simp) e3
          · exact hnl x (by simp [e2])
        · cases rest with
          | nil =>
            have : join_lines [l] = l := rfl
            rw [this] at e
            show c :: l = c :: cs
            rw [e]
          | cons l2 rest2 =>
            rw [join_lines_cons_cons] at e ⊢
            rw [← e]
            rfl

theorem from_raw_join (ls : List Str) (hne : ls ≠ []) (hnl : ∀ l ∈ ls, '\n' ∉ l) :
    from_raw (join_lines ls) = some (parse_lines ls (header.mk []) Structure.empty) := by
  simp [from_raw, split_lines_join ls hne hnl _ [] (Nat.lt_succ_self _)]

theorem add_node_list_tree (ns : List node) (h : header) (k : Str) :
    ∀ s : Structure, (s.add_node_list h ns)._tree k =
      if k = h.name ∧ ns ≠ [] then some ((s._tree k).getD [] ++ ns) else s._tree k := by
  induction ns with
  | nil => intro s; simp [add_node_list]
  | cons n ns ih =>
    intro s
    have hstep : s.add_node_list h (n :: ns) = (s.add_node h n).add_node_list h ns := rfl
    rw [hstep, ih]
    by_cases hk : k = h.name
    · subst hk
      by_cases hns : ns = []
      · simp [hns, add_node]
      · simp [hns, add_node]
    · simp [hk, add_node]

theorem node_from_raw_of_node_line (l : Str) (h : is_node_line l) :
    ∃ n, node.from_raw (clean l) = .ok n := by
  obtain ⟨pre, post, e, hp⟩ := mem_split_first (clean l) '=' h.2.2
  exact ⟨_, by rw [e]; exact node_from_raw_append pre post hp⟩

/-- A block of blank and node lines adds the nodes of its node lines, in line
order, under the current header, and leaves the current header unchanged. -/
theorem parse_lines_block (pre : List Str)
    (hpre : ∀ l ∈ pre, is_blank_line l ∨ is_node_line l) :
    ∃ nodes, nodes_of_lines pre nodes ∧
      ∀ rest h s, parse_lines (pre ++ rest) h s = parse_lines rest h (s.add_node_list h nodes) := by
  induction pre with
  | nil => exact ⟨[], by simp [nodes_of_lines], fun rest h s => rfl⟩
  | cons l pre ih =>
    obtain ⟨nodes, hnodes, hparse⟩ := ih (fun x hx => hpre x (by simp [hx]))
    rcases hpre l (by simp) with hb | hn
    · refine ⟨nodes, ?_, ?_⟩
      · have hb2 : clean l = [] := hb
        simpa [nodes_of_lines, hb2] using hnodes
      · intro rest h s
        have hb2 : clean l = [] := hb
        rw [List.cons_append, parse_lines_cons, if_pos hb2]
        exact hparse rest h s
    · obtain ⟨n, hn2⟩ := node_from_raw_of_node_line l hn
      refine ⟨n :: nodes, ?_, ?_⟩
      · have hne : ¬ clean l = [] := hn.1
        simp only [nodes_of_lines, List.filter_cons, hne, decide_False, Bool.not_false, if_true]
        exact List.Forall₂.cons hn2 hnodes
      · intro rest h s
        rw [List.cons_append, parse_lines_cons, if_neg hn.1, if_neg hn.2.1, hn2]
        exact hparse rest h (s.add_node h n)

/-- Lines under a header whose name is not empty, with every later header line
named as well, are parsed successfully and leave the sequence of the empty
header name unchanged. -/
theorem parse_lines_frame (rest : List Str)
    (hrest : ∀ l ∈ rest, is_blank_line l ∨ is_node_line l ∨ is_named_header_line l) :
    ∀ (h : header) (s : Structure), h.name ≠ [] →
      ∃ s2, parse_lines rest h s = .ok s2 ∧ s2._tree [] = s._tree [] := by
  induction rest with
  | nil => intro h s _; exact ⟨s, rfl, rfl⟩
  | cons l rest ih =>
    intro h s hh
    have ih2 := ih (fun x hx => hrest x (by simp [hx]))
    rcases hrest l (by simp) with hb | hn | hd
    · have hb2 : clean l = [] := hb
      rw [parse_lines_cons, if_pos hb2]
      exact ih2 h s hh
    · obtain ⟨n, hn2⟩ := node_from_raw_of_node_line l hn
      rw [parse_lines_cons, if_neg hn.1, if_neg hn.2.1, hn2]
      obtain ⟨s2, e, ht⟩ := ih2 h (s.add_node h n) hh
      refine ⟨s2, e, ?_⟩
      rw [ht]
      have : ¬ ([] : Str) = h.name := fun e => hh e.symm
      simp [add_node, this]
    · obtain ⟨hhead, h2, e2, hname⟩ := hd
      have hhead2 : (clean l).head? = some '[' := hhead
      have hne : ¬ clean l = [] := by
        intro e
        rw [e] at hhead2
        cases hhead2
      rw [parse_lines_cons, if_neg hne, if_pos hhead2, e2]
      exact ih2 h2 s hname

theorem nodes_of_lines_length (ls : List Str) (nodes : List node)
    (h : nodes_of_lines ls nodes) (hall : ∀ l ∈ ls, is_node_line l) :
    List.Forall₂ (fun l n => node.from_raw (clean l) = .ok n) ls nodes := by
  have hf : ls.filter (fun l => !decide (clean l = [])) = ls := by
    apply List.filter_eq_self.2
    intro l hl
    have : ¬ clean l = [] := (hall l hl).1
    simp [this]
  unfold nodes_of_lines at h
  rw [hf] at h
  exact h

theorem nodes_of_lines_ne_nil (ls : List Str) (nodes : List node)
    (h : nodes_of_lines ls nodes) (hex : ∃ l ∈ ls, is_node_line l) : nodes ≠ [] := by
  obtain ⟨l, hl, hn⟩ := hex
  have hmem : l ∈ ls.filter (fun l => !decide (clean l = [])) := by
    apply List.mem_filter.2
    have : ¬ clean l = [] := hn.1
    exact ⟨hl, by simp [this]⟩
  intro e
  unfold nodes_of_lines at h
  rw [e] at h
  have := h.length_eq
  simp only [List.length_nil, List.length_eq_zero] at this
  rw [this] at hmem
  cases hmem

theorem clean_bracketed (m : Str) (hm : ';' ∉ m) :
    clean ('[' :: (m ++ [']'])) = '[' :: (m ++ [']']) := by
  have hall : ∀ c ∈ '[' :: (m ++ [']']), (!decide (c = ';')) = true := by
    intro c hc
    have hne : c ≠ ';' := by
      intro e
      subst e
      rcases List.mem_cons.1 hc with e | e
      · exact absurd e (by decide)
      · rcases List.mem_append.1 e with e | e
        · exact hm e
        · exact absurd (List.mem_singleton.1 e) (by decide)
    simp [hne]
  unfold clean
  rw [List.takeWhile_eq_self_iff.2 hall]
  exact parser.trim_tight _ _ _ (by decide) (by decide)

/-- The splitting loop of `from_raw` never runs out of fuel: on every text
`from_raw` either returns a structure or throws. -/
theorem from_raw_total (data : Str) : ∃ r, from_raw data = some r := by
  obtain ⟨ls, hne, hnl, e⟩ := exists_lines data
  exact ⟨_, by rw [← e]; exact from_raw_join ls hne hnl⟩

/-- A header line `[m]`, with no `;` and no `]` in `m`, makes the header named
`trim m` the current header. -/
theorem parse_lines_header (m : Str) (hs : ';' ∉ m) (hb : ']' ∉ m) (rest : List Str)
    (h : header) (s : Structure) :
    parse_lines (('[' :: (m ++ [']'])) :: rest) h s
      = parse_lines rest (header.mk (parser.trim m)) s := by
  rw [parse_lines_cons, clean_bracketed m hs, if_neg (by simp), if_pos (by simp),
    header_from_raw_bracketed m hb]

end Structure

end ini

/-! ## Further lemmas for the parser -/

namespace ini

theorem rdropWhile_append_rtakeWhile (p : Char → Bool) (l : Str) :
    l.rdropWhile p ++ l.rtakeWhile p = l := by
  unfold List.rdropWhile List.rtakeWhile
  rw [← List.reverse_append, List.takeWhile_append_dropWhile, List.reverse_reverse]

end ini

namespace ini

namespace Structure

theorem node_from_raw_error (x : Str) (e : Error) (h : node.from_raw x = .error e) :
    e = .malformed_node := by
  by_cases hx : '=' ∈ x
  · obtain ⟨pre, post, e2, hp⟩ := mem_split_first x '=' hx
    rw [e2, node_from_raw_append pre post hp] at h
    cases h
  · rw [node_from_raw_no_eq x hx] at h
    cases h
    rfl

theorem header_from_raw_error (x : Str) (e : Error) (h : header.from_raw x = .error e) :
    '[' ∉ x ∨ ']' ∉ x := by
  by_contra hn
  have h1 : '[' ∈ x := by
    by_contra e1; exact hn (Or.inl e1)
  have h2 : ']' ∈ x := by
    by_contra e1; exact hn (Or.inr e1)
  obtain ⟨hd, hh⟩ := header_from_raw_ok x h1 h2
  rw [hh] at h
  cases h

theorem mem_of_head? (x : Str) (c : Char) (h : x.head? = some c) : c ∈ x := by
  cases x with
  | nil => cases h
  | cons a r =>
    simp only [List.head?_cons, Option.some.injEq] at h
    simp [h]

/-- A malformed node line makes the parsing loop fail, whatever precedes and
follows it; the failure is `malformed_node` unless an earlier header line is
malformed. -/
theorem parse_lines_malformed (L : Str) (after : List Str) (hL : is_malformed_node_line L) :
    ∀ (before : List Str) (h : header) (s : Structure),
      ∃ e, parse_lines (before ++ L :: after) h s = .error e ∧
        ((∀ l ∈ before, ¬ is_malformed_header_line l) → e = .malformed_node) := by
  intro before
  induction before with
  | nil =>
    intro h s
    refine ⟨.malformed_node, ?_, fun _ => rfl⟩
    rw [List.nil_append, parse_lines_cons, if_neg hL.1, if_neg hL.2.1,
      node_from_raw_no_eq _ hL.2.2]
  | cons l before ih =>
    intro h s
    rw [List.cons_append, parse_lines_cons]
    by_cases hb : clean l = []
    · rw [if_pos hb]
      obtain ⟨e, he, hm⟩ := ih h s
      exact ⟨e, he, fun hno => hm (fun x hx => hno x (by simp [hx]))⟩
    · rw [if_neg hb]
      by_cases hh : (clean l).head? = some '['
      · rw [if_pos hh]
        cases hf : header.from_raw (clean l) with
        | error e =>
          refine ⟨e, rfl, ?_⟩
          intro hno
          exfalso
          apply hno l (by simp)
          refine ⟨hh, ?_⟩
          rcases header_from_raw_error _ _ hf with h1 | h1
          · exact absurd (mem_of_head? _ _ hh) h1
          · exact h1
        | ok h2 =>
          obtain ⟨e, he, hm⟩ := ih h2 s
          exact ⟨e, he, fun hno => hm (fun x hx => hno x (by simp [hx]))⟩
      · rw [if_neg hh]
        cases hf : node.from_raw (clean l) with
        | error e =>
          exact ⟨e, rfl, fun _ => node_from_raw_error _ _ hf⟩
        | ok n =>
          obtain ⟨e, he, hm⟩ := ih h (s.add_node h n)
          exact ⟨e, he, fun hno => hm (fun x hx => hno x (by simp [hx]))⟩

end Structure

end ini

namespace ini

namespace Structure

/-- The parsing loop reads each line only through its cleaned form. -/
theorem parse_lines_congr (ls : List Str) :
    ∀ (ls2 : List Str), ls.map clean = ls2.map clean →
      ∀ (h : header) (s : Structure), parse_lines ls h s = parse_lines ls2 h s := by
  induction ls with
  | nil =>
    intro ls2 e h s
    cases ls2 with
    | nil => rfl
    | cons _ _ => simp at e
  | cons l ls ih =>
    intro ls2 e h s
    cases ls2 with
    | nil => simp at e
    | cons l2 ls2 =>
      simp only [List.map_cons, List.cons.injEq] at e
      obtain ⟨e1, e2⟩ := e
      have ih2 := ih ls2 e2
      rw [parse_lines_cons, parse_lines_cons, e1]
      simp only [ih2]

theorem join_lines_cons_ne (l : Str) (ls : List Str) (h : ls ≠ []) :
    join_lines (l :: ls) = l ++ '\n' :: join_lines ls := by
  cases ls with
  | nil => exact absurd rfl h
  | cons l2 r => rfl

theorem join_lines_append (A B : List Str) (hA : A ≠ []) (hB : B ≠ []) :
    join_lines (A ++ B) = join_lines A ++ '\n' :: join_lines B := by
  induction A with
  | nil => exact absurd rfl hA
  | cons a A ih =>
    cases A with
    | nil =>
      rw [List.singleton_append, join_lines_cons_ne a B hB]
      rfl
    | cons a2 A2 =>
      have := ih (by simp)
      rw [List.cons_append, join_lines_cons_ne _ _ (by simp), this, join_lines_cons_cons]
      simp

/-- A text `p ++ X ++ s`, where `p` is empty or ends with a newline and `s` is
empty or starts with one, has `X` as one of its lines, the other lines not
depending on `X`. -/
theorem lines_around (p s : Str) (hp : p = [] ∨ ∃ p0, p = p0 ++ ['\n'])
    (hs : s = [] ∨ ∃ s0, s = '\n' :: s0) :
    ∃ L1 L2 : List Str, (∀ l ∈ L1, '\n' ∉ l) ∧ (∀ l ∈ L2, '\n' ∉ l) ∧
      ∀ X : Str, p ++ X ++ s = join_lines (L1 ++ X :: L2) := by
  have hright : ∃ L2 : List Str, (∀ l ∈ L2, '\n' ∉ l) ∧
      ∀ X : Str, X ++ s = join_lines (X :: L2) := by
    rcases hs with e | ⟨s0, e⟩
    · exact ⟨[], by simp, fun X => by rw [e]; simp [join_lines]⟩
    · obtain ⟨ls, hne, hnl, ej⟩ := exists_lines s0
      refine ⟨ls, hnl, fun X => ?_⟩
      rw [join_lines_cons_ne X ls hne, ej, e]
  obtain ⟨L2, h2, e2⟩ := hright
  rcases hp with e | ⟨p0, e⟩
  · refine ⟨[], L2, by simp, h2, fun X => ?_⟩
    rw [e, List.nil_append, List.nil_append]
    exact e2 X
  · obtain ⟨ls, hne, hnl, ej⟩ := exists_lines p0
    refine ⟨ls, L2, hnl, h2, fun X => ?_⟩
    rw [join_lines_append ls (X :: L2) hne (by simp), ← e2 X, ej, e]
    simp

theorem takeWhile_comment (a c : Str) :
    (a ++ ';' :: c).takeWhile (fun x => !decide (x = ';'))
      = a.takeWhile (fun x => !decide (x = ';')) := by
  induction a with
  | nil => simp
  | cons x xs ih =>
    by_cases hx : x = ';'
    · simp [hx]
    · simp [List.takeWhile_cons, hx, ih]

theorem clean_comment (a c : Str) : clean (a ++ ';' :: c) = clean a := by
  unfold clean
  rw [takeWhile_comment]

theorem takeWhile_snoc (q : Char → Bool) (l : Str) (r : Char) :
    (l ++ [r]).takeWhile q = l.takeWhile q ∨ (l ++ [r]).takeWhile q = l.takeWhile q ++ [r] := by
  induction l with
  | nil =>
    by_cases hr : q r = true
    · right; simp [hr]
    · left; simp [hr]
  | cons x xs ih =>
    by_cases hx : q x = true
    · rcases ih with e | e
      · left; simp [List.takeWhile_cons, hx, e]
      · right; simp [List.takeWhile_cons, hx, e]
    · left; simp [List.takeWhile_cons, hx]

theorem clean_carriage_return (l : Str) : clean (l ++ ['\r']) = clean l := by
  unfold clean
  rcases takeWhile_snoc (fun x => !decide (x = ';')) l '\r' with e | e
  · rw [e]
  · rw [e]
    exact parser.trim_append_right _ _ (by decide)

theorem crlf_append (a b : Str) : crlf (a ++ b) = crlf a ++ crlf b := by
  induction a with
  | nil => rfl
  | cons x xs ih =>
    by_cases hx : x = '\n'
    · simp [crlf, hx, ih]
    · simp [crlf, hx, ih]

theorem crlf_line (l : Str) (h : '\n' ∉ l) : crlf l = l := by
  induction l with
  | nil => rfl
  | cons x xs ih =>
    have hx : ¬ x = '\n' := fun e => h (by simp [e])
    have hxs : '\n' ∉ xs := fun e => h (by simp [e])
    simp [crlf, hx, ih hxs]

theorem crlf_join (ls : List Str) (hnl : ∀ l ∈ ls, '\n' ∉ l) :
    crlf (join_lines ls) = join_lines (add_cr ls) := by
  induction ls with
  | nil => rfl
  | cons l rest ih =>
    cases rest with
    | nil => exact crlf_line l (hnl l (by simp))
    | cons l2 rest2 =>
      have ih2 := ih (fun x hx => hnl x (by simp [hx]))
      have hne : add_cr (l2 :: rest2) ≠ [] := by
        cases rest2 <;> simp [add_cr]
      rw [join_lines_cons_cons]
      show _ = join_lines ((l ++ ['\r']) :: add_cr (l2 :: rest2))
      rw [join_lines_cons_ne _ _ hne, crlf_append, crlf_line l (hnl l (by simp)), ← ih2]
      simp [crlf]

theorem add_cr_props (ls : List Str) (hnl : ∀ l ∈ ls, '\n' ∉ l) :
    (∀ l ∈ add_cr ls, '\n' ∉ l) ∧ (add_cr ls).map clean = ls.map clean ∧
      (ls ≠ [] → add_cr ls ≠ []) := by
  induction ls with
  | nil => simp [add_cr]
  | cons l rest ih =>
    cases rest with
    | nil => exact ⟨by simpa [add_cr] using hnl, rfl, by simp [add_cr]⟩
    | cons l2 rest2 =>
      obtain ⟨h1, h2, _⟩ := ih (fun x hx => hnl x (by simp [hx]))
      have hl : '\n' ∉ l := hnl l (by simp)
      refine ⟨?_, ?_, by simp [add_cr]⟩
      · intro x hx
        simp only [add_cr, List.mem_cons] at hx
        rcases hx with e | e
        · rw [e]
          intro hm
          rcases List.mem_append.1 hm with e1 | e1
          · exact hl e1
          · exact absurd (List.mem_singleton.1 e1) (by decide)
        · exact h1 x (by simpa [add_cr] using e)
      · show clean (l ++ ['\r']) :: (add_cr (l2 :: rest2)).map clean = _
        rw [clean_carriage_return, h2]
        rfl

end Structure

end ini

namespace ini

namespace Structure

theorem block_nodes_of_lines (ls : List Str) :
    ∀ nodes, nodes_of_lines ls nodes → nodes = block_nodes ls := by
  induction ls with
  | nil =>
    intro nodes h
    simp only [nodes_of_lines, List.filter_nil, List.forall₂_nil_left_iff] at h
    rw [h]; rfl
  | cons l ls ih =>
    intro nodes h
    by_cases hb : clean l = []
    · have h2 : nodes_of_lines ls nodes := by
        simpa [nodes_of_lines, hb] using h
      simp only [block_nodes, hb, if_true]
      exact ih nodes h2
    · simp only [nodes_of_lines, List.filter_cons, hb, decide_False, Bool.not_false,
        if_true] at h
      cases h with
      | cons hn hrest =>
        simp only [block_nodes, hb, if_false, hn]
        rw [← ih _ hrest]

/-- A block of blank and node lines adds `block_nodes` under the current
header. -/
theorem parse_lines_block_nodes (pre : List Str)
    (hpre : ∀ l ∈ pre, is_blank_line l ∨ is_node_line l) (rest : List Str) (h : header)
    (s : Structure) :
    parse_lines (pre ++ rest) h s = parse_lines rest h (s.add_node_list h (block_nodes pre)) := by
  obtain ⟨nodes, hn, hp⟩ := parse_lines_block pre hpre
  rw [← block_nodes_of_lines pre nodes hn]
  exact hp rest h s

theorem block_nodes_length (pre : List Str)
    (hpre : ∀ l ∈ pre, is_blank_line l ∨ is_node_line l) :
    (block_nodes pre).length = (pre.filter (fun l => !decide (clean l = []))).length := by
  obtain ⟨nodes, hn, _⟩ := parse_lines_block pre hpre
  rw [← block_nodes_of_lines pre nodes hn]
  exact hn.length_eq.symm

/-- The parsing loop over well-formed sections succeeds; under each header name
it appends the nodes of the sections with that name, in document order. -/
theorem parse_sections (secs : List Section) (hsecs : ∀ sec ∈ secs, is_section sec) :
    ∀ (h : header) (s : Structure),
      ∃ s2, parse_lines (section_lines secs) h s = .ok s2 ∧
        ∀ k, s2._tree k =
          if section_nodes k secs = [] then s._tree k
          else some ((s._tree k).getD [] ++ section_nodes k secs) := by
  induction secs with
  | nil => intro h s; exact ⟨s, rfl, fun k => by simp [section_nodes]⟩
  | cons sec rest ih =>
    intro h s
    obtain ⟨⟨hhead, hd, hfr⟩, hblk⟩ := hsecs sec (by simp)
    have hhead2 : (clean sec.1).head? = some '[' := hhead
    have hne : ¬ clean sec.1 = [] := by
      intro e
      rw [e] at hhead2
      cases hhead2
    have hname : line_header_name sec.1 = hd.name := by
      simp [line_header_name, hfr]
    obtain ⟨s2, hs2, htree⟩ := ih (fun x hx => hsecs x (by simp [hx])) hd
      (s.add_node_list hd (block_nodes sec.2))
    refine ⟨s2, ?_, ?_⟩
    · show parse_lines (sec.1 :: (sec.2 ++ section_lines rest)) h s = _
      rw [parse_lines_cons, if_neg hne, if_pos hhead2, hfr]
      show parse_lines (sec.2 ++ section_lines rest) hd s = _
      rw [parse_lines_block_nodes sec.2 hblk, hs2]
    · intro k
      rw [htree k, add_node_list_tree]
      simp only [section_nodes, hname]
      by_cases hk : k = hd.name
      · subst hk
        by_cases hB : block_nodes sec.2 = []
        · simp [hB]
        · by_cases hR : section_nodes hd.name rest = []
          · simp [hB, hR]
          · simp [hB, hR]
      · have hk2 : ¬ hd.name = k := fun e => hk e.symm
        simp [hk, hk2]

/-- The nodes recorded under the name `k` by a document made of a leading block
and sections: for the empty name the nodes of the leading block come first. -/
theorem from_raw_document (pre : List Str) (secs : List Section)
    (hnl : ∀ l ∈ pre ++ section_lines secs, '\n' ∉ l)
    (hpre : ∀ l ∈ pre, is_blank_line l ∨ is_node_line l)
    (hsecs : ∀ sec ∈ secs, is_section sec) :
    ∃ s, from_raw (join_lines (pre ++ section_lines secs)) = some (.ok s) ∧
      ∀ k, s.all_nodes_of k =
        if (if k = [] then block_nodes pre else []) ++ section_nodes k secs = []
        then .error .out_of_range
        else .ok ((if k = [] then block_nodes pre else []) ++ section_nodes k secs) := by
  obtain ⟨s2, hs2, htree⟩ := parse_sections secs hsecs (header.mk [])
    (Structure.empty.add_node_list (header.mk []) (block_nodes pre))
  have hparse : parse_lines (pre ++ section_lines secs) (header.mk []) Structure.empty
      = .ok s2 := by
    rw [parse_lines_block_nodes pre hpre, hs2]
  refine ⟨s2, ?_, ?_⟩
  · by_cases hne : pre ++ section_lines secs = []
    · rw [hne] at hparse ⊢
      have : from_raw (join_lines []) = some (parse_lines [] (header.mk []) Structure.empty) :=
        rfl
      rw [this, hparse]
    · rw [from_raw_join _ hne hnl, hparse]
  · intro k
    simp only [all_nodes_of, htree k, add_node_list_tree, header.name, Structure.empty]
    by_cases hk : k = []
    · subst hk
      by_cases hB : block_nodes pre = []
      · by_cases hR : section_nodes [] secs = []
        · simp [hB, hR]
        · simp [hB, hR]
      · by_cases hR : section_nodes [] secs = []
        · simp [hB, hR]
        · simp [hB, hR]
    · by_cases hR : section_nodes k secs = []
      · simp [hk, hR]
      · simp [hk, hR]

end Structure

end ini

namespace ini

namespace Structure

theorem add_node_calls_tree (calls : List (header × node)) (k : Str) :
    ∀ s : Structure, (s.add_node_calls calls)._tree k =
      if calls_under k calls = [] then s._tree k
      else some ((s._tree k).getD [] ++ calls_under k calls) := by
  induction calls with
  | nil => intro s; simp [add_node_calls, calls_under]
  | cons c calls ih =>
    intro s
    have hstep : s.add_node_calls (c :: calls) = (s.add_node c.1 c.2).add_node_calls calls := rfl
    rw [hstep, ih]
    by_cases hk : c.1.name = k
    · subst hk
      have hu : calls_under c.1.name (c :: calls) = c.2 :: calls_under c.1.name calls := by
        simp [calls_under]
      rw [hu]
      by_cases hR : calls_under c.1.name calls = []
      · simp [hR, add_node]
      · simp [hR, add_node]
    · have hk2 : ¬ k = c.1.name := fun e => hk e.symm
      have hu : calls_under k (c :: calls) = calls_under k calls := by
        simp [calls_under, hk]
      rw [hu]
      simp [add_node, hk2]

/-- Every structure that the parsing loop returns results from the structure it
started with by a sequence of `add_node` calls. -/
theorem parse_lines_calls (ls : List Str) :
    ∀ (h : header) (s s2 : Structure), parse_lines ls h s = .ok s2 →
      ∃ calls, s2 = s.add_node_calls calls := by
  induction ls with
  | nil =>
    intro h s s2 e
    have : s2 = s := by
      simp only [parse_lines, Except.ok.injEq] at e
      exact e.symm
    exact ⟨[], by rw [this]; rfl⟩
  | cons l ls ih =>
    intro h s s2 e
    rw [parse_lines_cons] at e
    by_cases hb : clean l = []
    · rw [if_pos hb] at e
      exact ih h s s2 e
    · rw [if_neg hb] at e
      by_cases hh : (clean l).head? = some '['
      · rw [if_pos hh] at e
        cases hf : header.from_raw (clean l) with
        | error err => rw [hf] at e; cases e
        | ok h2 =>
          rw [hf] at e
          exact ih h2 s s2 e
      · rw [if_neg hh] at e
        cases hf : node.from_raw (clean l) with
        | error err => rw [hf] at e; cases e
        | ok n =>
          rw [hf] at e
          obtain ⟨calls, hc⟩ := ih h (s.add_node h n) s2 e
          exact ⟨(h, n) :: calls, hc⟩

theorem from_raw_calls (text : Str) (s : Structure) (h : from_raw text = some (.ok s)) :
    ∃ calls, s = Structure.empty.add_node_calls calls := by
  obtain ⟨ls, hne, hnl, e⟩ := exists_lines text
  rw [← e, from_raw_join ls hne hnl] at h
  exact parse_lines_calls ls _ _ _ (Option.some.inj h)

theorem block_nodes_blank (ls : List Str) (h : ∀ l ∈ ls, is_blank_line l) :
    block_nodes ls = [] := by
  induction ls with
  | nil => rfl
  | cons l ls ih =>
    have hb : clean l = [] := h l (by simp)
    simp only [block_nodes, hb, if_true]
    exact ih (fun x hx => h x (by simp [hx]))

theorem dropWhile_append_cons_neg (p : Char → Bool) (xs ys : Str) (c : Char)
    (hc : ¬ p c = true) : (xs ++ c :: ys).dropWhile p = xs.dropWhile p ++ c :: ys := by
  induction xs with
  | nil => simp [List.dropWhile_cons, hc]
  | cons x xs ih =>
    by_cases hx : p x = true
    · simp [List.dropWhile_cons, hx, ih]
    · simp [List.dropWhile_cons, hx]

theorem rdropWhile_append_cons_neg (p : Char → Bool) (xs ys : Str) (c : Char)
    (hc : ¬ p c = true) : (xs ++ c :: ys).rdropWhile p = xs ++ c :: ys.rdropWhile p := by
  unfold List.rdropWhile
  rw [List.reverse_append, List.reverse_cons, List.append_assoc, List.singleton_append,
    dropWhile_append_cons_neg p _ _ c hc]
  simp

/-- Trimming a text around its first `=`: leading white space goes from the
part before the `=`, trailing white space from the part after it. -/
theorem trim_around_eq (a b : Str) :
    parser.trim (a ++ '=' :: b)
      = a.dropWhile parser.is_ws ++ '=' :: b.rdropWhile parser.is_ws := by
  rw [parser.trim_eq, dropWhile_append_cons_neg _ _ _ _ (by decide),
    rdropWhile_append_cons_neg _ _ _ _ (by decide)]

theorem clean_of_no_comment (x : Str) (h : ';' ∉ x) : clean x = parser.trim x := by
  unfold clean
  congr 1
  apply List.takeWhile_eq_self_iff.2
  intro c hc
  have : c ≠ ';' := fun e => h (e ▸ hc)
  simp [this]

theorem trim_dropWhile (a : Str) : parser.trim (a.dropWhile parser.is_ws) = parser.trim a := by
  rw [parser.trim_eq, parser.trim_eq, List.dropWhile_idempotent]

/-- The node that a node line `a = b` followed by an optional comment yields:
its name is `trim a`, its raw value is `b` without its trailing white space. -/
theorem node_of_line (a b c : Str) (ha : '=' ∉ a) (hsa : ';' ∉ a) (hsb : ';' ∉ b)
    (hc : c = [] ∨ ∃ c0, c = ';' :: c0) :
    clean (a ++ '=' :: b ++ c) = a.dropWhile parser.is_ws ++ '=' :: b.rdropWhile parser.is_ws ∧
    node.from_raw (clean (a ++ '=' :: b ++ c))
      = .ok (node.mk (parser.trim a) (b.rdropWhile parser.is_ws)) := by
  have hns : ';' ∉ a ++ '=' :: b := by
    intro hm
    rcases List.mem_append.1 hm with e | e
    · exact hsa e
    · rcases List.mem_cons.1 e with e2 | e2
      · exact absurd e2 (by decide)
      · exact hsb e2
  have hclean : clean (a ++ '=' :: b ++ c) = parser.trim (a ++ '=' :: b) := by
    rcases hc with e | ⟨c0, e⟩
    · rw [e, List.append_nil]
      exact clean_of_no_comment _ hns
    · have : a ++ '=' :: b ++ c = (a ++ '=' :: b) ++ ';' :: c0 := by rw [e]
      rw [this, clean_comment]
      exact clean_of_no_comment _ hns
  have hd : '=' ∉ a.dropWhile parser.is_ws :=
    fun hm => ha ((List.dropWhile_sublist parser.is_ws).subset hm)
  rw [hclean, trim_around_eq]
  refine ⟨rfl, ?_⟩
  rw [node_from_raw_append _ _ hd, trim_dropWhile]

end Structure

end ini

namespace ini

namespace Structure

/-- Lines that are each blank, a well-formed node line or an accepted header
line form a leading block followed by well-formed sections. -/
theorem exists_sections (ls : List Str)
    (h : ∀ l ∈ ls, is_blank_line l ∨ is_node_line l ∨ is_good_header_line l) :
    ∃ (pre : List Str) (secs : List Section), ls = pre ++ section_lines secs ∧
      (∀ l ∈ pre, is_blank_line l ∨ is_node_line l) ∧ (∀ sec ∈ secs, is_section sec) := by
  induction ls with
  | nil => exact ⟨[], [], rfl, by simp, by simp⟩
  | cons l ls ih =>
    obtain ⟨pre, secs, e, hpre, hsecs⟩ := ih (fun x hx => h x (by simp [hx]))
    rcases h l (by simp) with hb | hn | hg
    · refine ⟨l :: pre, secs, by rw [e]; rfl, ?_, hsecs⟩
      intro x hx
      rcases List.mem_cons.1 hx with e2 | e2
      · rw [e2]; exact Or.inl hb
      · exact hpre x e2
    · refine ⟨l :: pre, secs, by rw [e]; rfl, ?_, hsecs⟩
      intro x hx
      rcases List.mem_cons.1 hx with e2 | e2
      · rw [e2]; exact Or.inr hn
      · exact hpre x e2
    · refine ⟨[], (l, pre) :: secs, by rw [e]; rfl, by simp, ?_⟩
      intro sec hsec
      rcases List.mem_cons.1 hsec with e2 | e2
      · rw [e2]; exact ⟨hg, hpre⟩
      · exact hsecs sec e2

/-- The parsing loop succeeds only on lines that are each blank, a well-formed
node line or an accepted header line. -/
theorem parse_lines_ok_lines (ls : List Str) :
    ∀ (h : header) (s s2 : Structure), parse_lines ls h s = .ok s2 →
      ∀ l ∈ ls, is_blank_line l ∨ is_node_line l ∨ is_good_header_line l := by
  induction ls with
  | nil => intro h s s2 _ l hl; cases hl
  | cons x ls ih =>
    intro h s s2 e l hl
    rw [parse_lines_cons] at e
    by_cases hb : clean x = []
    · rw [if_pos hb] at e
      rcases List.mem_cons.1 hl with e2 | e2
      · rw [e2]; exact Or.inl hb
      · exact ih h s s2 e l e2
    · rw [if_neg hb] at e
      by_cases hh : (clean x).head? = some '['
      · rw [if_pos hh] at e
        cases hf : header.from_raw (clean x) with
        | error err => rw [hf] at e; cases e
        | ok h2 =>
          rw [hf] at e
          rcases List.mem_cons.1 hl with e2 | e2
          · rw [e2]; exact Or.inr (Or.inr ⟨hh, h2, hf⟩)
          · exact ih h2 s s2 e l e2
      · rw [if_neg hh] at e
        cases hf : node.from_raw (clean x) with
        | error err => rw [hf] at e; cases e
        | ok n =>
          rw [hf] at e
          rcases List.mem_cons.1 hl with e2 | e2
          · rw [e2]
            refine Or.inr (Or.inl ⟨hb, hh, ?_⟩)
            by_contra hne
            rw [node_from_raw_no_eq _ hne] at hf
            cases hf
          · exact ih h (s.add_node h n) s2 e l e2

/-- Every text that `from_raw` parses successfully is a leading block followed
by well-formed sections. -/
theorem from_raw_ok_sections (text : Str) (s : Structure)
    (h : from_raw text = some (.ok s)) :
    ∃ (pre : List Str) (secs : List Section),
      text = join_lines (pre ++ section_lines secs) ∧
      (∀ l ∈ pre ++ section_lines secs, '\n' ∉ l) ∧
      (∀ l ∈ pre, is_blank_line l ∨ is_node_line l) ∧ (∀ sec ∈ secs, is_section sec) := by
  obtain ⟨ls, hne, hnl, e⟩ := exists_lines text
  rw [← e, from_raw_join ls hne hnl] at h
  obtain ⟨pre, secs, e2, hpre, hsecs⟩ :=
    exists_sections ls (parse_lines_ok_lines ls _ _ _ (Option.some.inj h))
  refine ⟨pre, secs, by rw [← e2, e], ?_, hpre, hsecs⟩
  rw [← e2]
  exact hnl

end Structure

end ini

/-! ## The claims -/

namespace ini

/-- C1: for every line that contains an `=`, `node::from_raw` succeeds; the name
of the node is the trimmed text before the first `=` and its raw value is
exactly the text after the first `=`, untrimmed and with any further `=`. -/
theorem node_from_raw_first_eq (line : Str) (h : '=' ∈ line) :
    ∃ pre post n, line = pre ++ '=' :: post ∧ '=' ∉ pre ∧
      node.from_raw line = .ok n ∧ n.name = parser.trim pre ∧ n.raw_value = post := by
  obtain ⟨pre, post, e, hp⟩ := mem_split_first line '=' h
  refine ⟨pre, post, node.mk (parser.trim pre) post, e, hp, ?_, rfl, rfl⟩
  rw [e]
  exact node_from_raw_append pre post hp

theorem node_from_raw_first_eq_witness :
    '=' ∈ " k = a=b ".toList ∧
    ∃ pre post n, " k = a=b ".toList = pre ++ '=' :: post ∧ '=' ∉ pre ∧
      node.from_raw " k = a=b ".toList = .ok n ∧ n.name = parser.trim pre ∧
      n.raw_value = post :=
  ⟨by decide, node_from_raw_first_eq _ (by decide)⟩

/-- C3: `header::from_raw` fails with `malformed_header` exactly when the line
has no `[` or has no `]`; on every line that has both characters, in any
order, it succeeds and returns a header. -/
theorem header_from_raw_malformed_iff (line : Str) :
    (header.from_raw line = .error .malformed_header ↔ ('[' ∉ line ∨ ']' ∉ line)) ∧
    (('[' ∈ line ∧ ']' ∈ line) ↔ ∃ h, header.from_raw line = .ok h) := by
  have key : ¬ ('[' ∉ line ∨ ']' ∉ line) → ∃ h, header.from_raw line = .ok h := by
    intro hn
    have h1 : '[' ∈ line := by
      by_contra e; exact hn (Or.inl e)
    have h2 : ']' ∈ line := by
      by_contra e; exact hn (Or.inr e)
    exact header_from_raw_ok line h1 h2
  refine ⟨⟨?_, header_from_raw_malformed line⟩, ⟨fun h => header_from_raw_ok line h.1 h.2, ?_⟩⟩
  · intro he
    by_contra hn
    obtain ⟨h, hh⟩ := key hn
    rw [hh] at he
    cases he
  · rintro ⟨h, hh⟩
    by_contra hn
    have : '[' ∉ line ∨ ']' ∉ line := by
      by_cases h1 : '[' ∈ line
      · by_cases h2 : ']' ∈ line
        · exact absurd ⟨h1, h2⟩ hn
        · exact Or.inr h2
      · exact Or.inl h1
    rw [header_from_raw_malformed line this] at hh
    cases hh

/-- C4: for every `n` without `]` and all runs of white space `w1`, `w2`, `w3`,
`w4`, the header read from `w1 [ w2 n w3 ] w4` has the name `trim n`. -/
theorem header_from_raw_name_trimmed (n w1 w2 w3 w4 : Str) (hn : ']' ∉ n)
    (h1 : ∀ c ∈ w1, c ∈ parser.whitespace) (h2 : ∀ c ∈ w2, c ∈ parser.whitespace)
    (h3 : ∀ c ∈ w3, c ∈ parser.whitespace) (h4 : ∀ c ∈ w4, c ∈ parser.whitespace) :
    ∃ h, header.from_raw (w1 ++ ['['] ++ w2 ++ n ++ w3 ++ [']'] ++ w4) = .ok h ∧
      h.name = parser.trim n := by
  refine ⟨header.mk (parser.trim n), ?_, rfl⟩
  have hm : ']' ∉ w2 ++ n ++ w3 := by
    intro e
    rcases List.mem_append.1 e with e | e
    · rcases List.mem_append.1 e with e | e
      · exact absurd (h2 _ e) (by decide)
      · exact hn e
    · exact absurd (h3 _ e) (by decide)
  have hshape : w1 ++ ['['] ++ w2 ++ n ++ w3 ++ [']'] ++ w4
      = w1 ++ (('[' :: ((w2 ++ n ++ w3) ++ [']'])) ++ w4) := by simp
  have hraw : ∀ raw raw2 : Str, parser.trim raw = parser.trim raw2 →
      header.from_raw raw = header.from_raw raw2 := by
    intro raw raw2 e
    simp only [header.from_raw, e]
  rw [hshape, hraw _ ('[' :: ((w2 ++ n ++ w3) ++ [']']))
    (by rw [parser.trim_append_left _ _ h1, parser.trim_append_right _ _ h4]),
    header_from_raw_bracketed _ hm, parser.trim_append_right _ _ h3,
    parser.trim_append_left _ _ h2]

theorem header_from_raw_name_trimmed_witness :
    ∃ h, header.from_raw (" \t".toList ++ ['['] ++ "  ".toList ++ "a [b".toList ++ " ".toList
        ++ [']'] ++ "\r\n".toList) = .ok h ∧ h.name = parser.trim "a [b".toList :=
  header_from_raw_name_trimmed _ _ _ _ _ (by decide) (by decide) (by decide) (by decide)
    (by decide)

/-- C5, evaluated where it fails: on `x[ab]cd` the first `[` is at index 1, and
`substr(op_b + 1, cl_b - 1)` takes `cl_b - 1 = 3` characters from index 2, so the
name is `ab]` and not the text `ab` between the brackets. -/
theorem header_from_raw_offset_bracket :
    header.from_raw "x[ab]cd".toList = .ok (header.mk "ab]".toList) ∧
    header.from_raw "x[ab]cd".toList ≠ .ok (header.mk (parser.trim "ab".toList)) := by
  constructor
  · rfl
  · intro h
    have h2 : header.from_raw "x[ab]cd".toList = .ok (header.mk "ab]".toList) := rfl
    rw [h2] at h
    exact absurd (congrArg header._name (Except.ok.inj h)) (by decide)

/-- C6: `node::get` with a string deserializer fails with `empty_node_value`
exactly when the trimmed raw value is empty, whatever the mode; otherwise it
returns the trimmed raw value under the mode `trim` and the raw value unchanged
under the mode `none`. -/
theorem node_get_string (n : node) :
    (∀ mode, n.get (string_deserializer mode) = .error .empty_node_value ↔
      parser.trim n.raw_value = []) ∧
    (parser.trim n.raw_value ≠ [] →
      n.get (string_deserializer deserializer_modes.trim) = .ok (parser.trim n.raw_value) ∧
      n.get (string_deserializer deserializer_modes.none) = .ok n.raw_value) := by
  have hm1 : has_mode deserializer_modes.trim deserializer_modes.trim = true := by decide
  have hm0 : has_mode deserializer_modes.none deserializer_modes.trim = false := by decide
  refine ⟨?_, ?_⟩
  · intro mode
    by_cases e : parser.trim n._value = []
    · simp [node.get, node.raw_value, e]
    · simp [node.get, node.raw_value, e, string_deserializer]
  · intro e
    have e' : ¬ parser.trim n._value = [] := e
    constructor
    · simp [node.get, node.raw_value, e', string_deserializer, default_parse, hm1]
    · simp [node.get, node.raw_value, e', string_deserializer, default_parse, hm0]

theorem node_get_string_witness :
    parser.trim (node.mk "k".toList "  v  ".toList).raw_value ≠ [] ∧
    (node.mk "k".toList "  v  ".toList).get (string_deserializer deserializer_modes.trim)
      = .ok (parser.trim (node.mk "k".toList "  v  ".toList).raw_value) ∧
    (node.mk "k".toList "  v  ".toList).get (string_deserializer deserializer_modes.none)
      = .ok (node.mk "k".toList "  v  ".toList).raw_value :=
  ⟨by decide, (node_get_string _).2 (by decide)⟩

/-- C7: integer round trip.  For each of the types `u8`, `u16`, `u32`, `u64`,
`i16`, `i32`, `i64` and every value `v` of the type, the node built from
`number_serializer<T>(v)` reads back as `v` through `number_deserializer<T>`.
The proof is the same for each of the seven types. -/
theorem number_round_trip (T : IntType) (v : Int) (name : Str)
    (hT : T ∈ [IntType.unsigned_char, IntType.unsigned_short, IntType.unsigned_int,
      IntType.unsigned_long_long, IntType.short, IntType.int, IntType.long_long])
    (hv : T.in_range v) :
    (node.mk name (number_serializer T v)).get (number_deserializer T deserializer_modes.none)
      = .ok v := by
  obtain ⟨ds, hd, e, hval⟩ := to_string_eq_literal v
  have hfit : parse_fits T (decide (v < 0)) ds := by
    apply parse_fits_of_in_range
    rw [hval]
    exact hv
  rw [number_serializer, e, node_get_literal name _ ds hd,
    number_deserializer_literal T _ _ ds hd, if_pos hfit, hval,
    static_cast_of_in_range T v hv]

theorem number_round_trip_witness :
    (node.mk "value".toList (number_serializer IntType.short (-32768))).get
      (number_deserializer IntType.short deserializer_modes.none) = .ok (-32768) :=
  number_round_trip IntType.short (-32768) _ (by decide) (by decide)

/-- C8: for every `n` below `2 ^ 64`, the node read from `name=` followed by the
decimal digits of `n` yields `n mod 256` through the 8-bit unsigned
deserializer. -/
theorem u8_get_truncates (n : Nat) (hn : n < 2 ^ 64) :
    ∃ nd, node.from_raw ("name=".toList ++ decimal n) = .ok nd ∧
      nd.get (u8_deserializer deserializer_modes.none) = .ok ((n % 256 : Nat) : Int) := by
  obtain ⟨hd, hval⟩ := decimal_spec n
  refine ⟨node.mk (parser.trim "name".toList) (decimal n), ?_, ?_⟩
  · have : "name=".toList ++ decimal n = "name".toList ++ '=' :: decimal n := by
      simp [String.toList]
    rw [this]
    exact node_from_raw_append _ _ (by decide)
  · have hfit : parse_fits IntType.unsigned_char false (decimal n) := by
      simp only [parse_fits, IntType.is_signed, Bool.false_eq_true, if_false, hval]
      omega
    have hl : decimal n = literal false (decimal n) := by simp [literal]
    rw [hl, node_get_literal _ _ _ hd]
    show number_deserializer IntType.unsigned_char _ _ = _
    rw [number_deserializer_literal _ _ _ _ hd, if_pos hfit]
    simp only [static_cast, IntType.is_signed, IntType.bits, IntType.sizeof, literal_value,
      Bool.false_eq_true, if_false, hval]
    norm_num

theorem u8_get_truncates_witness :
    ∃ nd, node.from_raw ("name=".toList ++ decimal 256) = .ok nd ∧
      nd.get (u8_deserializer deserializer_modes.none) = .ok ((256 % 256 : Nat) : Int) :=
  u8_get_truncates 256 (by decide)

/-- C9, refuted as stated: the 32-bit signed deserializer does not wrap the
literal `2147483648` (two to the 31) around to `-2147483648`; `stoi` throws
`std::out_of_range`. -/
theorem i32_deserializer_out_of_range :
    i32_deserializer deserializer_modes.none "2147483648".toList = .error .out_of_range ∧
    static_cast IntType.int 2147483648 = -2147483648 :=
  ⟨rfl, rfl⟩

/-- C9, amended: on a decimal integer literal (an optional minus sign and
digits) the deserializer of an integer type returns the literal's value wrapped
to the width of the type when the value lies in the range of the conversion
function it calls (`int` for signed types up to 32 bits, `long long` for the
64-bit signed type, a magnitude up to `2 ^ 64 - 1` for unsigned types), and
fails with `std::out_of_range` otherwise. -/
theorem number_deserializer_wraps (T : IntType) (mode : deserializer_mode) (neg : Bool)
    (ds : Str) (h : is_digits ds) :
    (parse_fits T neg ds →
      number_deserializer T mode (literal neg ds)
        = .ok (static_cast T (literal_value neg ds))) ∧
    (¬ parse_fits T neg ds →
      number_deserializer T mode (literal neg ds) = .error .out_of_range) := by
  rw [number_deserializer_literal T mode neg ds h]
  constructor
  · intro hf; rw [if_pos hf]
  · intro hf; rw [if_neg hf]

theorem number_deserializer_wraps_witness :
    is_digits "32769".toList ∧ parse_fits IntType.short true "32769".toList ∧
    number_deserializer IntType.short deserializer_modes.none (literal true "32769".toList)
      = .ok (static_cast IntType.short (literal_value true "32769".toList)) ∧
    static_cast IntType.short (literal_value true "32769".toList) = 32767 :=
  ⟨by decide, by decide,
    (number_deserializer_wraps IntType.short deserializer_modes.none true "32769".toList
      (by decide)).1 (by decide),
    by decide⟩

/-- C2, refuted as stated: a header line `[h]` whose `h` holds a `;` loses its
closing bracket to comment removal, and `from_raw` fails with
`malformed_header` although the line after it is a well-formed node line; and
when `h` holds a `]` the name stops there, so `all_nodes_of (trim h)` fails. -/
theorem structure_from_raw_header_comment :
    Structure.is_node_line "k=v".toList ∧
    Structure.from_raw (Structure.join_lines ["[a;b]".toList, "k=v".toList])
      = some (.error .malformed_header) ∧
    (∃ s, Structure.from_raw (Structure.join_lines ["[a]b]".toList, "k=v".toList])
        = some (.ok s) ∧
      s.all_nodes_of (parser.trim "a]b".toList) = .error .out_of_range ∧
      s.all_nodes_of "a".toList = .ok [node.mk "k".toList "v".toList]) :=
  ⟨by decide, rfl, _, rfl, rfl, rfl⟩

/-- C2, amended: when `h` holds no `;` and no `]`, the text whose lines are `[h]`
followed by `k ≥ 1` well-formed node lines parses successfully, and
`all_nodes_of (trim h)` is exactly the `k` nodes that `node::from_raw` yields on
the cleaned node lines, in line order.  On the specification's six-line
document, `header1` has the three nodes `this-is-a-node`, `node1` (raw value
`test_value`) and `node2`, and `header2` has the single node `morenode`, whose
32-bit unsigned value is 320. -/
theorem structure_from_raw_section :
    (∀ (h : Str) (ls : List Str), ';' ∉ h → ']' ∉ h → '\n' ∉ h → ls ≠ [] →
      (∀ l ∈ ls, '\n' ∉ l ∧ Structure.is_node_line l) →
      ∃ s nodes,
        Structure.from_raw (Structure.join_lines (('[' :: (h ++ [']'])) :: ls)) = some (.ok s) ∧
        s.all_nodes_of (parser.trim h) = .ok nodes ∧
        nodes.length = ls.length ∧
        List.Forall₂ (fun l n => node.from_raw (Structure.clean l) = .ok n) ls nodes) ∧
    (∃ s, Structure.from_raw Structure.spec_document = some (.ok s) ∧
      s.all_nodes_of "header1".toList = .ok
        [node.mk "this-is-a-node".toList "value".toList,
         node.mk "node1".toList "test_value".toList,
         node.mk "node2".toList "test_value2".toList] ∧
      ∃ n, s.all_nodes_of "header2".toList = .ok [n] ∧ n.name = "morenode".toList ∧
        n.get (u32_deserializer deserializer_modes.none) = .ok 320) := by
  refine ⟨?_, ⟨_, rfl, rfl, _, rfl, rfl, rfl⟩⟩
  intro h ls hs hb hnl hne hls
  obtain ⟨nodes, hnodes, hparse⟩ :=
    Structure.parse_lines_block ls (fun l hl => Or.inr (hls l hl).2)
  have hall : ∀ l ∈ ls, Structure.is_node_line l := fun l hl => (hls l hl).2
  have hf2 := Structure.nodes_of_lines_length ls nodes hnodes hall
  have hnn : nodes ≠ [] := by
    cases ls with
    | nil => exact absurd rfl hne
    | cons l ls => exact Structure.nodes_of_lines_ne_nil _ _ hnodes ⟨l, by simp, hall l (by simp)⟩
  have hlines : ∀ l ∈ ('[' :: (h ++ [']'])) :: ls, '\n' ∉ l := by
    intro l hl
    rcases List.mem_cons.1 hl with e | e
    · subst e
      intro hmem
      rcases List.mem_cons.1 hmem with e | e
      · exact absurd e (by decide)
      · rcases List.mem_append.1 e with e | e
        · exact hnl e
        · exact absurd (List.mem_singleton.1 e) (by decide)
    · exact (hls l e).1
  refine ⟨Structure.empty.add_node_list (header.mk (parser.trim h)) nodes, nodes, ?_, ?_,
    hf2.length_eq.symm, hf2⟩
  · rw [Structure.from_raw_join _ (by simp) hlines, Structure.parse_lines_header h hs hb]
    have := hparse [] (header.mk (parser.trim h)) Structure.empty
    rw [List.append_nil] at this
    rw [this]
    rfl
  · simp [Structure.all_nodes_of, Structure.add_node_list_tree, header.name, hnn,
      Structure.empty]

theorem structure_from_raw_section_witness :
    ∃ s nodes,
      Structure.from_raw (Structure.join_lines
        (('[' :: (" sec ".toList ++ [']'])) :: ["a = 1 ; one".toList, "b=2".toList]))
          = some (.ok s) ∧
      s.all_nodes_of (parser.trim " sec ".toList) = .ok nodes ∧
      nodes.length = ["a = 1 ; one".toList, "b=2".toList].length ∧
      List.Forall₂ (fun l n => node.from_raw (Structure.clean l) = .ok n)
        ["a = 1 ; one".toList, "b=2".toList] nodes :=
  structure_from_raw_section.1 _ _ (by decide) (by decide) (by decide) (by decide) (by decide)

/-- C10, refuted as stated: after the leading node `a=1`, the header line `[]`
names the empty header again, so `all_nodes_of("")` also returns the node `b=2`
that follows it; and a malformed later line makes `from_raw` fail altogether. -/
theorem structure_from_raw_empty_header :
    (∃ s, Structure.from_raw (Structure.join_lines ["a=1".toList, "[]".toList, "b=2".toList])
        = some (.ok s) ∧
      s.all_nodes_of [] = .ok [node.mk "a".toList "1".toList, node.mk "b".toList "2".toList]) ∧
    Structure.from_raw (Structure.join_lines ["a=1".toList, "b".toList])
      = some (.error .malformed_node) :=
  ⟨⟨_, rfl, rfl⟩, rfl⟩

/-- C10, amended: let the lines of a text be `pre` followed by `rest`, where `pre`
holds only blank lines and well-formed node lines, at least one of them a node
line, and `rest` is empty or starts with a header line; let every line of `rest`
be blank, a well-formed node line, or a header line that `header::from_raw`
accepts with a name that is not empty.  Then `from_raw` succeeds and
`all_nodes_of("")` is exactly the nodes of the node lines of `pre`, in line
order. -/
theorem structure_from_raw_leading_nodes (pre rest : List Str)
    (hnl : ∀ l ∈ pre ++ rest, '\n' ∉ l)
    (hpre : ∀ l ∈ pre, Structure.is_blank_line l ∨ Structure.is_node_line l)
    (hex : ∃ l ∈ pre, Structure.is_node_line l)
    (hfirst : ∀ l ∈ rest.head?, Structure.is_header_line l)
    (hrest : ∀ l ∈ rest, Structure.is_blank_line l ∨ Structure.is_node_line l ∨
      Structure.is_named_header_line l) :
    ∃ s nodes, Structure.from_raw (Structure.join_lines (pre ++ rest)) = some (.ok s) ∧
      s.all_nodes_of [] = .ok nodes ∧ Structure.nodes_of_lines pre nodes := by
  obtain ⟨nodes, hnodes, hparse⟩ := Structure.parse_lines_block pre hpre
  have hnn : nodes ≠ [] := Structure.nodes_of_lines_ne_nil _ _ hnodes hex
  have hne : pre ++ rest ≠ [] := by
    obtain ⟨l, hl, _⟩ := hex
    intro e
    have : l ∈ pre ++ rest := List.mem_append.2 (Or.inl hl)
    rw [e] at this
    cases this
  have htree : (Structure.empty.add_node_list (header.mk []) nodes)._tree [] = some nodes := by
    simp [Structure.add_node_list_tree, header.name, hnn, Structure.empty]
  have hgoal : ∃ s, Structure.parse_lines rest (header.mk [])
      (Structure.empty.add_node_list (header.mk []) nodes) = .ok s ∧ s._tree [] = some nodes := by
    cases rest with
    | nil => exact ⟨_, rfl, htree⟩
    | cons hl rest2 =>
      have hhead : Structure.is_header_line hl := hfirst hl (by simp)
      have hhead2 : (Structure.clean hl).head? = some '[' := hhead
      have hcne : ¬ Structure.clean hl = [] := by
        intro e
        rw [e] at hhead2
        cases hhead2
      rcases hrest hl (by simp) with hb | hn | hd
      · exact absurd hb hcne
      · exact absurd hhead2 hn.2.1
      · obtain ⟨-, h2, e2, hname⟩ := hd
        rw [Structure.parse_lines_cons, if_neg hcne, if_pos hhead2, e2]
        obtain ⟨s2, es, ht⟩ := Structure.parse_lines_frame rest2
          (fun x hx => hrest x (by simp [hx])) h2 _ hname
        exact ⟨s2, es, by rw [ht, htree]⟩
  obtain ⟨s, es, ht⟩ := hgoal
  refine ⟨s, nodes, ?_, ?_, hnodes⟩
  · rw [Structure.from_raw_join _ hne hnl, hparse, es]
  · simp [Structure.all_nodes_of, ht]

theorem structure_from_raw_leading_nodes_witness :
    ∃ s nodes,
      Structure.from_raw (Structure.join_lines
        (["; settings".toList, "a=1".toList, "".toList, "b = 2".toList] ++
          ["[sec]".toList, "c=3".toList])) = some (.ok s) ∧
      s.all_nodes_of [] = .ok nodes ∧
      Structure.nodes_of_lines
        ["; settings".toList, "a=1".toList, "".toList, "b = 2".toList] nodes :=
  structure_from_raw_leading_nodes _ _ (by decide) (by decide)
    ⟨"a=1".toList, by decide, by decide⟩ (by decide)
    (by
      intro l hl
      simp only [List.mem_cons, List.mem_singleton, List.not_mem_nil, or_false] at hl
      rcases hl with e | e
      · subst e
        exact Or.inr (Or.inr ⟨by decide, header.mk "sec".toList, rfl, by decide⟩)
      · subst e
        exact Or.inr (Or.inl (by decide)))

/-- C14: after `s.add_node(h, n)` the sequence of `h.name()` is the sequence it
held before, or the empty one if the name was absent, with `n` appended at the
end; the sequence of every other header name is unchanged, and still fails if
it was absent. -/
theorem add_node_appends (s : Structure) (h : header) (n : node) :
    (∀ ns, s.all_nodes_of h.name = .ok ns →
      (s.add_node h n).all_nodes_of h.name = .ok (ns ++ [n])) ∧
    (s.all_nodes_of h.name = .error .out_of_range →
      (s.add_node h n).all_nodes_of h.name = .ok [n]) ∧
    (∀ k, k ≠ h.name → (s.add_node h n).all_nodes_of k = s.all_nodes_of k) := by
  refine ⟨?_, ?_, ?_⟩
  · intro ns hns
    cases ht : s._tree h.name with
    | none => simp [Structure.all_nodes_of, ht] at hns
    | some v =>
      simp only [Structure.all_nodes_of, ht, Except.ok.injEq] at hns
      simp [Structure.all_nodes_of, Structure.add_node, ht, hns]
  · intro hns
    cases ht : s._tree h.name with
    | none => simp [Structure.all_nodes_of, Structure.add_node, ht]
    | some v => simp [Structure.all_nodes_of, ht] at hns
  · intro k hk
    simp [Structure.all_nodes_of, Structure.add_node, hk]

theorem add_node_appends_witness :
    ((Structure.empty.add_node (header.mk "h".toList) (node.mk "a".toList "1".toList)).add_node
        (header.mk "h".toList) (node.mk "b".toList "2".toList)).all_nodes_of
        (header.mk "h".toList).name
      = .ok ([node.mk "a".toList "1".toList] ++ [node.mk "b".toList "2".toList]) :=
  (add_node_appends _ _ _).1 [node.mk "a".toList "1".toList] rfl

/-- C18: on every line without `=`, `node::from_raw` fails with
`malformed_node` and produces no node. -/
theorem node_from_raw_without_eq (line : Str) (h : '=' ∉ line) :
    node.from_raw line = .error .malformed_node ∧ ¬ ∃ n, node.from_raw line = .ok n := by
  have e := node_from_raw_no_eq line h
  refine ⟨e, ?_⟩
  rintro ⟨n, hn⟩
  rw [e] at hn
  cases hn

theorem node_from_raw_without_eq_witness :
    '=' ∉ "  no delimiter here ".toList ∧
    node.from_raw "  no delimiter here ".toList = .error .malformed_node ∧
    ¬ ∃ n, node.from_raw "  no delimiter here ".toList = .ok n :=
  ⟨by decide, node_from_raw_without_eq _ (by decide)⟩

/-- C20: when `s` records no sequence for `h.name()`, `s.add_nodes(h, begin, end)`
stores none of the nodes of the range, whatever the range is: afterwards
`all_nodes_of(h.name())` succeeds and returns the empty sequence, and the
sequence of every other header name is unchanged. -/
theorem add_nodes_stores_nothing (s : Structure) (h : header) (range : List node)
    (habs : s._tree h.name = none) :
    ∃ s2, s.add_nodes h range = some s2 ∧ s2.all_nodes_of h.name = .ok [] ∧
      ∀ k, k ≠ h.name → s2.all_nodes_of k = s.all_nodes_of k := by
  refine ⟨⟨fun k => if k = h.name then some [] else s._tree k⟩, ?_, ?_, ?_⟩
  · simp [Structure.add_nodes, habs]
  · simp [Structure.all_nodes_of]
  · intro k hk
    simp [Structure.all_nodes_of, hk]

theorem add_nodes_stores_nothing_witness :
    ∃ s2, Structure.empty.add_nodes (header.mk "h".toList)
        [node.mk "a".toList "1".toList, node.mk "b".toList "2".toList] = some s2 ∧
      s2.all_nodes_of (header.mk "h".toList).name = .ok [] ∧
      ∀ k, k ≠ (header.mk "h".toList).name →
        s2.all_nodes_of k = Structure.empty.all_nodes_of k :=
  add_nodes_stores_nothing _ _ _ rfl

/-- C17: `trim` is total: both `erase` calls receive an index within the string
(`0`, and at most the size), so neither throws.  Every string `s` splits as
`p ++ trim s ++ q` with `p` and `q` made only of space, newline, carriage return
and tab; `trim s` is empty or both starts and ends with a character outside
that set; the empty string trims to itself, and a string made only of
characters of the set trims to the empty string. -/
theorem trim_decomposition (s : Str) :
    (size_succ (string_find_last_not_of
        (string_erase s 0 (string_find_first_not_of s parser.whitespace)) parser.whitespace)
      ≤ (string_erase s 0 (string_find_first_not_of s parser.whitespace)).length) ∧
    (∃ p q, (∀ c ∈ p, c ∈ parser.whitespace) ∧ (∀ c ∈ q, c ∈ parser.whitespace) ∧
      s = p ++ parser.trim s ++ q) ∧
    (parser.trim s = [] ∨
      ((∃ a, (parser.trim s).head? = some a ∧ a ∉ parser.whitespace) ∧
       (∃ b, (parser.trim s).getLast? = some b ∧ b ∉ parser.whitespace))) ∧
    parser.trim [] = [] ∧
    ((∀ c ∈ s, c ∈ parser.whitespace) → parser.trim s = []) := by
  refine ⟨parser.trim_erase_index_le _, ?_, ?_, parser.trim_nil,
    (parser.trim_eq_nil_iff s).2⟩
  · refine ⟨s.takeWhile parser.is_ws, (s.dropWhile parser.is_ws).rtakeWhile parser.is_ws,
      ?_, ?_, ?_⟩
    · intro c hc
      exact (parser.is_ws_iff c).1 (List.mem_takeWhile_imp hc)
    · intro c hc
      exact (parser.is_ws_iff c).1 (List.mem_rtakeWhile_imp hc)
    · rw [parser.trim_eq, List.append_assoc, rdropWhile_append_rtakeWhile,
        List.takeWhile_append_dropWhile]
  · by_cases he : parser.trim s = []
    · exact Or.inl he
    · right
      rw [parser.trim_eq] at he ⊢
      constructor
      · obtain ⟨t, ht⟩ := List.rdropWhile_prefix parser.is_ws (l := s.dropWhile parser.is_ws)
        cases hr : List.rdropWhile parser.is_ws (List.dropWhile parser.is_ws s) with
        | nil => exact absurd hr he
        | cons a r =>
          refine ⟨a, rfl, ?_⟩
          rw [hr] at ht
          have hh := List.head?_dropWhile_not parser.is_ws s
          rw [← ht] at hh
          simp only [List.cons_append, List.head?_cons] at hh
          intro ha
          have := (parser.is_ws_iff a).2 ha
          simp [this] at hh
      · refine ⟨_, List.getLast?_eq_getLast _ he, ?_⟩
        intro hb
        exact List.rdropWhile_last_not parser.is_ws _ he ((parser.is_ws_iff _).2 hb)

/-- C12: fail-fast.  A text that contains a malformed node line (after comment
removal and trimming: not empty, not starting with `[`, without `=`) makes
`structure::from_raw` fail, whatever the other lines are, and no structure is
returned; the failure is `malformed_node` whenever no earlier line is a
malformed header line. -/
theorem structure_from_raw_fail_fast (before after : List Str) (L : Str)
    (hnl : ∀ l ∈ before ++ L :: after, '\n' ∉ l)
    (hL : Structure.is_malformed_node_line L) :
    ∃ e, Structure.from_raw (Structure.join_lines (before ++ L :: after)) = some (.error e) ∧
      (¬ ∃ s, Structure.from_raw (Structure.join_lines (before ++ L :: after)) = some (.ok s)) ∧
      ((∀ l ∈ before, ¬ Structure.is_malformed_header_line l) → e = .malformed_node) := by
  obtain ⟨e, he, hm⟩ :=
    Structure.parse_lines_malformed L after hL before (header.mk []) Structure.empty
  have hfr : Structure.from_raw (Structure.join_lines (before ++ L :: after))
      = some (.error e) := by
    rw [Structure.from_raw_join _ (by simp) hnl, he]
  refine ⟨e, hfr, ?_, hm⟩
  rintro ⟨s, hs⟩
  rw [hfr] at hs
  cases hs

theorem structure_from_raw_fail_fast_witness :
    ∃ e, Structure.from_raw (Structure.join_lines
        (["[sec]".toList, "a=1".toList] ++ "oops ; no delimiter".toList ::
          ["b=2".toList, "[broken".toList])) = some (.error e) ∧
      (¬ ∃ s, Structure.from_raw (Structure.join_lines
        (["[sec]".toList, "a=1".toList] ++ "oops ; no delimiter".toList ::
          ["b=2".toList, "[broken".toList])) = some (.ok s)) ∧
      ((∀ l ∈ ["[sec]".toList, "a=1".toList], ¬ Structure.is_malformed_header_line l) →
        e = .malformed_node) :=
  structure_from_raw_fail_fast _ _ _ (by decide) (by decide)

/-- C16: comment removal.  When `p` is empty or ends with a newline, `a` and `c`
hold no newline, and `s` is empty or starts with a newline, the texts
`p ++ a ++ ";" ++ c ++ s` and `p ++ a ++ s` have the same outcome under
`structure::from_raw`: the same error or the same structure. -/
theorem structure_from_raw_comment (p a c s : Str)
    (hp : p = [] ∨ ∃ p0, p = p0 ++ ['\n']) (ha : '\n' ∉ a) (hc : '\n' ∉ c)
    (hs : s = [] ∨ ∃ s0, s = '\n' :: s0) :
    Structure.from_raw (p ++ a ++ [';'] ++ c ++ s) = Structure.from_raw (p ++ a ++ s) := by
  obtain ⟨L1, L2, h1, h2, e⟩ := Structure.lines_around p s hp hs
  have hX : '\n' ∉ a ++ ';' :: c := by
    intro hm
    rcases List.mem_append.1 hm with e1 | e1
    · exact ha e1
    · rcases List.mem_cons.1 e1 with e2 | e2
      · exact absurd e2 (by decide)
      · exact hc e2
  have hnl : ∀ X : Str, '\n' ∉ X → ∀ l ∈ L1 ++ X :: L2, '\n' ∉ l := by
    intro X hXn l hl
    rcases List.mem_append.1 hl with e1 | e1
    · exact h1 l e1
    · rcases List.mem_cons.1 e1 with e2 | e2
      · rw [e2]; exact hXn
      · exact h2 l e2
  have hshape : p ++ a ++ [';'] ++ c ++ s = p ++ (a ++ ';' :: c) ++ s := by simp
  rw [hshape, e (a ++ ';' :: c), e a, Structure.from_raw_join _ (by simp) (hnl _ hX),
    Structure.from_raw_join _ (by simp) (hnl _ ha)]
  congr 1
  apply Structure.parse_lines_congr
  simp [Structure.clean_comment]

theorem structure_from_raw_comment_witness :
    Structure.from_raw ("[s]\n".toList ++ "k=v".toList ++ [';'] ++ "w ; x".toList ++ "\nj=1".toList)
      = Structure.from_raw ("[s]\n".toList ++ "k=v".toList ++ "\nj=1".toList) :=
  structure_from_raw_comment _ _ _ _ (Or.inr ⟨"[s]".toList, rfl⟩) (by decide) (by decide)
    (Or.inr ⟨"j=1".toList, rfl⟩)

/-- C19: line-ending invariance.  Replacing every newline of a text by a carriage
return and a newline does not change the outcome of `structure::from_raw`: the
same error or the same structure. -/
theorem structure_from_raw_crlf (t : Str) :
    Structure.from_raw (Structure.crlf t) = Structure.from_raw t := by
  obtain ⟨ls, hne, hnl, e⟩ := Structure.exists_lines t
  obtain ⟨h1, h2, h3⟩ := Structure.add_cr_props ls hnl
  rw [← e, Structure.crlf_join ls hnl, Structure.from_raw_join _ (h3 hne) h1,
    Structure.from_raw_join _ hne hnl]
  congr 1
  exact Structure.parse_lines_congr _ _ h2 _ _

/-- C11, refuted as stated: when the empty name appears on two header lines
`[]`, `all_nodes_of("")` also returns the node `a=1` that precedes the first
header line, not only the nodes `b=2` and `c=3` that follow the two
occurrences; and when no node line follows any occurrence of `[h]`,
`all_nodes_of("h")` fails instead of returning the empty concatenation. -/
theorem structure_from_raw_repeated_header_edge :
    (∃ s, Structure.from_raw (Structure.join_lines
        ["a=1".toList, "[]".toList, "b=2".toList, "[]".toList, "c=3".toList]) = some (.ok s) ∧
      s.all_nodes_of [] = .ok [node.mk "a".toList "1".toList, node.mk "b".toList "2".toList,
        node.mk "c".toList "3".toList]) ∧
    Structure.section_nodes []
        [("[]".toList, ["b=2".toList]), ("[]".toList, ["c=3".toList])]
      = [node.mk "b".toList "2".toList, node.mk "c".toList "3".toList] ∧
    (∃ s, Structure.from_raw (Structure.join_lines ["[h]".toList, "[h]".toList])
        = some (.ok s) ∧
      s.all_nodes_of "h".toList = .error .out_of_range) :=
  ⟨⟨_, rfl, rfl⟩, rfl, ⟨_, rfl, rfl⟩⟩

/-- C11, amended: let the lines of a text be a leading block `pre` of blank and
well-formed node lines followed by sections, each a header line that
`header::from_raw` accepts and a block of blank and well-formed node lines.
Then `from_raw` succeeds, and for every name `k` the concatenation, in document
order, of the nodes of the sections whose header line names `k`, preceded for
the empty name by the nodes of `pre`, is what `all_nodes_of(k)` returns when it
is not empty; when it is empty `all_nodes_of(k)` fails.  Every node line
contributes its own entry, whether or not names repeat. -/
theorem structure_from_raw_repeated_header (pre : List Str) (secs : List Structure.Section)
    (hnl : ∀ l ∈ pre ++ Structure.section_lines secs, '\n' ∉ l)
    (hpre : ∀ l ∈ pre, Structure.is_blank_line l ∨ Structure.is_node_line l)
    (hsecs : ∀ sec ∈ secs, Structure.is_section sec) :
    (∃ s, Structure.from_raw (Structure.join_lines (pre ++ Structure.section_lines secs))
        = some (.ok s) ∧
      ∀ k, s.all_nodes_of k =
        if (if k = [] then Structure.block_nodes pre else []) ++ Structure.section_nodes k secs
            = []
        then .error .out_of_range
        else .ok ((if k = [] then Structure.block_nodes pre else []) ++
          Structure.section_nodes k secs)) ∧
    (∀ sec ∈ secs, (Structure.block_nodes sec.2).length
      = (sec.2.filter (fun l => !decide (Structure.clean l = []))).length) :=
  ⟨Structure.from_raw_document pre secs hnl hpre hsecs,
    fun sec hsec => Structure.block_nodes_length sec.2 (hsecs sec hsec).2⟩

theorem structure_from_raw_repeated_header_witness :
    ∃ s, Structure.from_raw (Structure.join_lines (["x=0".toList] ++ Structure.section_lines
        [("[h]".toList, ["a=1".toList, "a=2".toList]), ("[g]".toList, ["b=1".toList]),
         ("[ h ] ; again".toList, ["".toList, "a=1".toList])])) = some (.ok s) ∧
      s.all_nodes_of "h".toList = .ok [node.mk "a".toList "1".toList,
        node.mk "a".toList "2".toList, node.mk "a".toList "1".toList] := by
  obtain ⟨s, hs, hk⟩ := (structure_from_raw_repeated_header ["x=0".toList]
    [("[h]".toList, ["a=1".toList, "a=2".toList]), ("[g]".toList, ["b=1".toList]),
     ("[ h ] ; again".toList, ["".toList, "a=1".toList])]
    (by decide) (by decide)
    (by
      intro sec hsec
      simp only [List.mem_cons, List.mem_singleton, List.not_mem_nil, or_false] at hsec
      rcases hsec with e | e | e
      · subst e; exact ⟨⟨by decide, header.mk "h".toList, rfl⟩, by decide⟩
      · subst e; exact ⟨⟨by decide, header.mk "g".toList, rfl⟩, by decide⟩
      · subst e; exact ⟨⟨by decide, header.mk "h".toList, rfl⟩, by decide⟩)).1
  exact ⟨s, hs, (hk "h".toList).trans rfl⟩

/-- C13: on a structure built from the empty one by any sequence of `add_node`
calls, `all_nodes_of(k)` fails with key-not-found exactly when no call was made
under the name `k`, and when it succeeds it returns the nodes of the calls
under `k`, a sequence that is not empty.  Every structure that `from_raw`
returns is built that way.  A header line followed by blank lines only leaves
every name unknown, its own included, and so does the empty text. -/
theorem all_nodes_of_unknown :
    (∀ (calls : List (header × node)) (k : Str),
      ((Structure.empty.add_node_calls calls).all_nodes_of k = .error .out_of_range ↔
        Structure.calls_under k calls = []) ∧
      (∀ ns, (Structure.empty.add_node_calls calls).all_nodes_of k = .ok ns →
        ns = Structure.calls_under k calls ∧ ns ≠ [])) ∧
    (∀ (text : Str) (s : Structure), Structure.from_raw text = some (.ok s) →
      ∃ calls, s = Structure.empty.add_node_calls calls) ∧
    (∀ (m : Str) (blanks : List Str), ';' ∉ m → ']' ∉ m → '\n' ∉ m →
      (∀ l ∈ blanks, '\n' ∉ l ∧ Structure.is_blank_line l) →
      ∃ s, Structure.from_raw (Structure.join_lines (('[' :: (m ++ [']'])) :: blanks))
          = some (.ok s) ∧
        ∀ k, s.all_nodes_of k = .error .out_of_range) ∧
    (∃ s, Structure.from_raw [] = some (.ok s) ∧
      ∀ k, s.all_nodes_of k = .error .out_of_range) := by
  refine ⟨?_, Structure.from_raw_calls, ?_, ⟨Structure.empty, rfl, fun k => rfl⟩⟩
  · intro calls k
    have ht := Structure.add_node_calls_tree calls k Structure.empty
    by_cases hu : Structure.calls_under k calls = []
    · have hnone : (Structure.empty.add_node_calls calls)._tree k = none := by
        rw [ht, if_pos hu]; rfl
      constructor
      · simp [Structure.all_nodes_of, hnone, hu]
      · intro ns hns
        simp [Structure.all_nodes_of, hnone] at hns
    · have hsome : (Structure.empty.add_node_calls calls)._tree k
          = some (Structure.calls_under k calls) := by
        rw [ht, if_neg hu]; simp [Structure.empty]
      constructor
      · simp [Structure.all_nodes_of, hsome, hu]
      · intro ns hns
        simp only [Structure.all_nodes_of, hsome, Except.ok.injEq] at hns
        rw [← hns]
        exact ⟨rfl, hu⟩
  · intro m blanks hs hb hn hbl
    have hsec : ∀ sec ∈ [(('[' :: (m ++ [']']), blanks) : Structure.Section)],
        Structure.is_section sec := by
      intro sec hsec
      rw [List.mem_singleton.1 hsec]
      refine ⟨⟨?_, header.mk (parser.trim m), ?_⟩, fun l hl => Or.inl (hbl l hl).2⟩
      · show (Structure.clean ('[' :: (m ++ [']']))).head? = some '['
        rw [Structure.clean_bracketed m hs]; rfl
      · show header.from_raw (Structure.clean ('[' :: (m ++ [']']))) = _
        rw [Structure.clean_bracketed m hs, header_from_raw_bracketed m hb]
    have hlines : Structure.section_lines [(('[' :: (m ++ [']']), blanks) : Structure.Section)]
        = ('[' :: (m ++ [']'])) :: blanks := by
      simp [Structure.section_lines]
    have hnl : ∀ l ∈ ([] : List Str) ++
        Structure.section_lines [(('[' :: (m ++ [']']), blanks) : Structure.Section)],
        '\n' ∉ l := by
      rw [hlines]
      intro l hl
      rcases List.mem_cons.1 hl with e | e
      · subst e
        intro hmem
        rcases List.mem_cons.1 hmem with e | e
        · exact absurd e (by decide)
        · rcases List.mem_append.1 e with e | e
          · exact hn e
          · exact absurd (List.mem_singleton.1 e) (by decide)
      · exact (hbl l e).1
    obtain ⟨s, hfr, hk⟩ := Structure.from_raw_document [] _ hnl (by simp) hsec
    rw [List.nil_append, hlines] at hfr
    refine ⟨s, hfr, fun k => ?_⟩
    rw [hk k]
    have hbn : Structure.block_nodes blanks = [] :=
      Structure.block_nodes_blank blanks (fun l hl => (hbl l hl).2)
    simp [Structure.section_nodes, Structure.block_nodes, hbn]

theorem all_nodes_of_unknown_witness :
    ∃ s, Structure.from_raw (Structure.join_lines
        (('[' :: (" sec ".toList ++ [']'])) :: ["".toList, "  ; nothing here".toList]))
        = some (.ok s) ∧
      ∀ k, s.all_nodes_of k = .error .out_of_range :=
  all_nodes_of_unknown.2.2.1 _ _ (by decide) (by decide) (by decide) (by decide)

/-- C15, refuted as stated: the raw value stored for the node line `k=v` followed
by two spaces is `v`; the trailing spaces are not kept, because the whole line
is trimmed before `node::from_raw` splits it. -/
theorem structure_from_raw_trailing_space :
    ∃ s n, Structure.from_raw "k=v  ".toList = some (.ok s) ∧
      s.all_nodes_of [] = .ok [n] ∧ n.raw_value = "v".toList ∧
      n.raw_value ≠ "v  ".toList ∧
      n.get (string_deserializer deserializer_modes.none) = .ok "v".toList :=
  ⟨_, _, rfl, rfl, rfl, by decide, rfl⟩

/-- C15, amended: for a node line `a = b` followed by an optional comment (no
`=` in `a`, no `;` in `a` or `b`), the parsing loop of `from_raw` stores under the
current header the node whose name is `trim a` and whose raw value is `b`
without its trailing white space: the leading white space of the value is
kept for the deserializer, the trailing white space is removed with the line's.
The raw value and `b` differ by trailing white space only. -/
theorem node_line_raw_value (a b c : Str) (ha : '=' ∉ a) (hsa : ';' ∉ a) (hsb : ';' ∉ b)
    (hc : c = [] ∨ ∃ c0, c = ';' :: c0)
    (hnh : ¬ Structure.is_header_line (a ++ '=' :: b ++ c)) :
    (∀ (rest : List Str) (h : header) (s : Structure),
      Structure.parse_lines ((a ++ '=' :: b ++ c) :: rest) h s
        = Structure.parse_lines rest h
            (s.add_node h (node.mk (parser.trim a) (b.rdropWhile parser.is_ws)))) ∧
    ('\n' ∉ a ++ '=' :: b ++ c →
      ∃ s, Structure.from_raw (a ++ '=' :: b ++ c) = some (.ok s) ∧
        s.all_nodes_of [] = .ok [node.mk (parser.trim a) (b.rdropWhile parser.is_ws)]) ∧
    (∃ q, (∀ x ∈ q, x ∈ parser.whitespace) ∧ b = b.rdropWhile parser.is_ws ++ q) ∧
    (∀ x, (b.rdropWhile parser.is_ws).getLast? = some x → x ∉ parser.whitespace) := by
  obtain ⟨hclean, hnode⟩ := Structure.node_of_line a b c ha hsa hsb hc
  have hne : ¬ Structure.clean (a ++ '=' :: b ++ c) = [] := by
    rw [hclean]; simp
  have hstep : ∀ (rest : List Str) (h : header) (s : Structure),
      Structure.parse_lines ((a ++ '=' :: b ++ c) :: rest) h s
        = Structure.parse_lines rest h
            (s.add_node h (node.mk (parser.trim a) (b.rdropWhile parser.is_ws))) := by
    intro rest h s
    have hnh2 : ¬ (Structure.clean (a ++ '=' :: b ++ c)).head? = some '[' := hnh
    rw [Structure.parse_lines_cons, if_neg hne, if_neg hnh2, hnode]
  refine ⟨hstep, ?_, ?_, ?_⟩
  · intro hnl
    refine ⟨Structure.empty.add_node (header.mk [])
      (node.mk (parser.trim a) (b.rdropWhile parser.is_ws)), ?_, ?_⟩
    · have hj : a ++ '=' :: b ++ c = Structure.join_lines [a ++ '=' :: b ++ c] := rfl
      rw [hj, Structure.from_raw_join _ (by simp) (by simpa using hnl), hstep]
      rfl
    · simp [Structure.all_nodes_of, Structure.add_node, header.name, Structure.empty]
  · refine ⟨b.rtakeWhile parser.is_ws, ?_, (rdropWhile_append_rtakeWhile _ b).symm⟩
    intro x hx
    exact (parser.is_ws_iff x).1 (List.mem_rtakeWhile_imp hx)
  · intro x hx hw
    have hnn : b.rdropWhile parser.is_ws ≠ [] := by
      intro e
      rw [e] at hx
      cases hx
    rw [List.getLast?_eq_getLast _ hnn] at hx
    have := List.rdropWhile_last_not parser.is_ws b hnn
    rw [Option.some.inj hx] at this
    exact this ((parser.is_ws_iff x).2 hw)

theorem node_line_raw_value_witness :
    ∃ s, Structure.from_raw (" key ".toList ++ '=' :: "  some value \t".toList ++ "; note".toList)
        = some (.ok s) ∧
      s.all_nodes_of [] = .ok [node.mk (parser.trim " key ".toList)
        ("  some value \t".toList.rdropWhile parser.is_ws)] :=
  (node_line_raw_value " key ".toList "  some value \t".toList "; note".toList
    (by decide) (by decide) (by decide) (Or.inr ⟨" note".toList, rfl⟩) (by decide)).2.1
    (by decide)

theorem structure_from_raw_crlf_witness :
    Structure.from_raw "[s]\r\nk=v\r\n; end".toList = Structure.from_raw "[s]\nk=v\n; end".toList :=
  structure_from_raw_crlf "[s]\nk=v\n; end".toList

end ini
